import Mathlib

/-!
Verification of the curation-and-synthesis pipeline of the
`langgraph_company_research` backend.

The development shallowly embeds the code of
`backend/nodes/curator.py`, `backend/nodes/briefing.py`,
`backend/nodes/editor.py` and `backend/nodes/researchers/base.py`.
Strings are Lean `String`s (sequences of unicode scalar values, matching
Python's `str` for the operations used); floats are modelled as `ℚ`
(the code only ever compares scores against the decimal threshold 0.4
and sorts by score, which `ℚ` mirrors faithfully); Python dicts are
modelled as insertion-ordered association lists, which is exactly the
iteration/overwrite semantics of CPython dicts.

The curator normalizes URLs with
`urlparse(url)._replace(query='', fragment='').geturl()`.
The first section embeds the part of CPython's `urllib.parse` that this
exercises, following the stdlib of CPython 3.11 (the model below was
validated case-by-case against CPython 3.11.6): `urlsplit` (WHATWG
leading control/space strip, unsafe `\t\r\n` removal, scheme detection
with the leading-ASCII-letter guard, `//netloc` splitting with IPv6
bracket validation, fragment and query splitting), the `urlparse`
params split (`_splitparams`, gated on `uses_params`), and
`urlunparse`/`urlunsplit` (which implement `geturl`, including the
`uses_netloc` re-anchoring rule).  The bracketed-host validator
`_check_bracketed_host` (regex plus `ipaddress` parsing) is kept
abstract as a parameter `vh`; the `_checknetloc` NFKC check, which can
only fire on non-ASCII netlocs, is not modelled.
-/

/-- Leading characters stripped by `urlsplit`
(`_WHATWG_C0_CONTROL_OR_SPACE`, code points 0x00..0x20). -/
def c0ControlOrSpace (c : Char) : Bool :=
  c.toNat ≤ 32

/-- Characters removed by `urlsplit` anywhere in the URL
(`_UNSAFE_URL_BYTES_TO_REMOVE = ["\t", "\r", "\n"]`). -/
def unsafeUrlChar (c : Char) : Bool :=
  c = '\t' || c = '\r' || c = '\n'

/-- `url.lstrip(_WHATWG_C0_CONTROL_OR_SPACE)` followed by
`url.replace(b, "")` for each unsafe byte. -/
def scrubUrl (l : List Char) : List Char :=
  (l.dropWhile c0ControlOrSpace).filter (fun c => !unsafeUrlChar c)

/-- ASCII uppercase letter test (on code points). -/
def asciiUpper (c : Char) : Bool :=
  65 ≤ c.toNat && c.toNat ≤ 90

/-- ASCII lowercase letter test. -/
def asciiLower (c : Char) : Bool :=
  97 ≤ c.toNat && c.toNat ≤ 122

/-- `c.isascii() and c.isalpha()` (the guard on the first scheme char). -/
def asciiAlpha (c : Char) : Bool :=
  asciiUpper c || asciiLower c

/-- ASCII digit test. -/
def asciiDigit (c : Char) : Bool :=
  48 ≤ c.toNat && c.toNat ≤ 57

/-- Membership in `scheme_chars` (letters, digits, and `+-.`). -/
def schemeChar (c : Char) : Bool :=
  asciiAlpha c || asciiDigit c || c = '+' || c = '-' || c = '.'

/-- ASCII lowering, as `str.lower` acts on the (ASCII) scheme characters. -/
def lowerChar (c : Char) : Char :=
  if asciiUpper c then Char.ofNat (c.toNat + 32) else c

/-- `urlsplit` scheme detection:
`i = url.find(':')`; accept when `i > 0`, the first character is an
ASCII letter and every character before the colon is in `scheme_chars`;
on acceptance the scheme is lowercased and the colon consumed. -/
def splitScheme (u : List Char) : List Char × List Char :=
  let pre := u.takeWhile schemeChar
  let rest := u.dropWhile schemeChar
  match pre, rest with
  | p :: ps, x :: r =>
      if x = ':' ∧ asciiAlpha p then ((p :: ps).map lowerChar, r) else ([], u)
  | _, _ => ([], u)

/-- The netloc is delimited by the first of `/?#` (`_splitnetloc`). -/
def netlocDelim (c : Char) : Bool :=
  c = '/' || c = '?' || c = '#'

/-- Everything strictly before the first occurrence of `c` (the whole
list when `c` is absent); the first half of `str.partition(c)`. -/
def takeUntil (c : Char) (l : List Char) : List Char :=
  l.takeWhile (fun a => a != c)

/-- Everything strictly after the first occurrence of `c` (empty when
`c` is absent); the last part of `str.partition(c)`. -/
def dropPast (c : Char) (l : List Char) : List Char :=
  (l.dropWhile (fun a => a != c)).tail

/-- `urlsplit` netloc extraction, parametrized by the bracketed-host
validator `vh` (abstracting `_check_bracketed_host`).  Netloc splitting
happens only when the remainder starts with `//`; `none` models the
ValueError raised on an unbalanced `[`/`]` pair, or on a bracketed host
rejected by the validator. -/
def splitNetloc (vh : List Char → Bool) (u : List Char) :
    Option (List Char × List Char) :=
  match u with
  | a :: b :: r =>
      if a = '/' ∧ b = '/' then
        let n := r.takeWhile (fun c => !netlocDelim c)
        let rest := r.dropWhile (fun c => !netlocDelim c)
        if ('[' ∈ n) ↔ (']' ∈ n) then
          if '[' ∈ n then
            if vh (takeUntil ']' (dropPast '[' n)) then some (n, rest)
            else none
          else some (n, rest)
        else none
      else some ([], u)
  | _ => some ([], u)

/-- Split a list at its LAST `'/'`: `some (a, b)` with
`p = a ++ '/' :: b` and no `'/'` in `b`; `none` when there is no `'/'`.
This is the split CPython computes with `url.rfind('/')`. -/
def splitAtLastSlash : List Char → Option (List Char × List Char)
  | [] => none
  | c :: t =>
      match splitAtLastSlash t with
      | some (a, b) => some (c :: a, b)
      | none => if c = '/' then some ([], t) else none

/-- `_splitparams(url)`: when the path contains a `'/'`, split at the
first `';'` at-or-after the last `'/'` (no split when there is none);
otherwise split at the first `';'`.  Callers only invoke this with
`';' in url`. -/
def splitParams (p : List Char) : List Char × List Char :=
  match splitAtLastSlash p with
  | some (a, b) =>
      if ';' ∈ b then
        (a ++ '/' :: b.takeWhile (fun x => x != ';'),
         (b.dropWhile (fun x => x != ';')).tail)
      else (p, [])
  | none =>
      (p.takeWhile (fun x => x != ';'),
       (p.dropWhile (fun x => x != ';')).tail)

/-- The result fields of CPython's `ParseResult`. -/
structure UrlComponents where
  scheme : List Char
  netloc : List Char
  path : List Char
  params : List Char
  query : List Char
  fragment : List Char
deriving DecidableEq, Repr

/-- `uses_params` from `urllib.parse` (schemes for which `urlparse`
performs the params split; note it contains the empty scheme). -/
def usesParams : List (List Char) :=
  [[], "ftp".data, "hdl".data, "prospero".data, "http".data, "imap".data,
   "https".data, "shttp".data, "rtsp".data, "rtsps".data, "rtspu".data,
   "sip".data, "sips".data, "mms".data, "sftp".data, "tel".data]

/-- `uses_netloc` from `urllib.parse` (schemes for which `urlunsplit`
re-anchors a `//` netloc section).  It contains the empty scheme, but
`urlunsplit` guards with truthiness (`scheme and scheme in uses_netloc`),
so the empty entry is inert there. -/
def usesNetloc : List (List Char) :=
  [[], "ftp".data, "http".data, "gopher".data, "nntp".data, "telnet".data,
   "imap".data, "wais".data, "file".data, "mms".data, "https".data,
   "shttp".data, "snews".data, "prospero".data, "rtsp".data, "rtsps".data,
   "rtspu".data, "rsync".data, "svn".data, "svn+ssh".data, "sftp".data,
   "nfs".data, "git".data, "git+ssh".data, "ws".data, "wss".data]

/-- `urllib.parse.urlparse` (via `urlsplit`): strip/scrub, split off
scheme, netloc, fragment, query, then params.  `none` models the
ValueError raised on an invalid bracketed netloc. -/
def urlparseCore (vh : List Char → Bool) (u0 : List Char) :
    Option UrlComponents :=
  let u := scrubUrl u0
  let sp := splitScheme u
  match splitNetloc vh sp.2 with
  | none => none
  | some (netloc, r2) =>
      let p1 := takeUntil '#' r2
      let fragment := dropPast '#' r2
      let p2 := takeUntil '?' p1
      let query := dropPast '?' p1
      let pp :=
        if sp.1 ∈ usesParams ∧ ';' ∈ p2 then splitParams p2 else (p2, [])
      some ⟨sp.1, netloc, pp.1, pp.2, query, fragment⟩

/-- `urlunparse` / `ParseResult.geturl` (CPython 3.11): re-attach params
with `';'`, then `urlunsplit`: re-attach `//netloc` when the netloc is
nonempty OR the scheme is a nonempty `uses_netloc` scheme and the path
part does not already start with `//` (prefixing the path with `'/'`
when needed), then the scheme with `':'`, the query with `'?'` and the
fragment with `'#'`. -/
def urlunparse (c : UrlComponents) : List Char :=
  let u0 := c.path ++ (if c.params = [] then [] else ';' :: c.params)
  let u1 :=
    if c.netloc ≠ [] ∨
        (c.scheme ≠ [] ∧ c.scheme ∈ usesNetloc ∧ u0.take 2 ≠ ['/', '/']) then
      '/' :: '/' :: (c.netloc ++
        (match u0 with
         | [] => []
         | a :: _ => if a = '/' then u0 else '/' :: u0))
    else u0
  let u2 := if c.scheme = [] then u1 else c.scheme ++ ':' :: u1
  let u3 := if c.query = [] then u2 else u2 ++ '?' :: c.query
  if c.fragment = [] then u3 else u3 ++ '#' :: c.fragment

/-- `parsed._replace(query='', fragment='')`. -/
def stripQF (c : UrlComponents) : UrlComponents :=
  { c with query := [], fragment := [] }

/-- The curator's URL normalization
(`curator.py` lines 132-135): parse, drop query and fragment, unparse.
Note the preceding `url = urljoin('https://', url)` in the source has
no effect on this value: `clean_url` is built from `parsed`, which was
computed from the original `url` before that reassignment. -/
def normalizeList (vh : List Char → Bool) (u : List Char) :
    Option (List Char) :=
  (urlparseCore vh u).map (fun c => urlunparse (stripQF c))

/-- String-level wrapper of `normalizeList`. -/
def normalizeUrl (vh : List Char → Bool) (s : String) : Option String :=
  (normalizeList vh s.data).map (fun l => ⟨l⟩)

/-!
## Documents and the Curator (`backend/nodes/curator.py`)

A document is a Python dict; the fields the embedded code touches are
made explicit, with `Option` for possibly-absent keys.  The `score`
value can be any Python object; `ScoreField` classifies it by how
`float(doc.get('score', 0))` behaves on it: a missing key defaults to
`0`, numbers and numeric strings coerce, non-numeric strings raise
`ValueError` and `None` raises `TypeError` (both caught by
`except (ValueError, TypeError): continue`).
-/

/-- The possible states of a document's `score` entry, classified by
the behavior of `float(doc.get('score', 0))`. -/
inductive ScoreField where
  | missing
  | num (q : ℚ)
  | strNum (q : ℚ)
  | strBad
  | noneVal
deriving DecidableEq, Repr

/-- `float(doc.get('score', 0))`: `some` is the coerced value, `none`
means the coercion raised (`ValueError`/`TypeError`). -/
def coerceScore : ScoreField → Option ℚ
  | .missing => some 0
  | .num q => some q
  | .strNum q => some q
  | .strBad => none
  | .noneVal => none

/-- The `evaluation` sub-dict attached by the curator. -/
structure EvalInfo where
  overall_score : ℚ
  query : String
deriving DecidableEq, Repr

/-- A document dict, with the fields the embedded code reads/writes. -/
structure Doc where
  url : String
  title : String
  content : String
  raw_content : Option String
  source : Option String
  score : ScoreField
  query : String
  doc_type : Option String
  evaluation : Option EvalInfo
deriving DecidableEq, Repr

/-- `self.relevance_threshold = 0.4`. -/
def relevance_threshold : ℚ := mkRat 2 5

/-- `float(x['evaluation']['overall_score'])`, the sort key used by
both `evaluate_documents` and `curate_data`.  On the lists these sorts
receive every document carries an `evaluation` (attached just before),
so the `none` default is never exercised. -/
def evalScore (d : Doc) : ℚ :=
  match d.evaluation with
  | some e => e.overall_score
  | none => 0

/-- Descending-score ordering on documents (`reverse=True`). -/
def docGE (a b : Doc) : Prop := evalScore b ≤ evalScore a

instance : DecidableRel docGE := fun a b =>
  inferInstanceAs (Decidable (evalScore b ≤ evalScore a))

instance : IsTotal Doc docGE :=
  ⟨fun a b => (le_total (evalScore b) (evalScore a)).imp id id⟩

instance : IsTrans Doc docGE :=
  ⟨fun _ _ _ h1 h2 => le_trans h2 h1⟩

/-- Descending-score ordering on `(url, doc)` items
(`key=lambda item: item[1]['evaluation']['overall_score'], reverse=True`). -/
def kvGE (a b : String × Doc) : Prop := evalScore b.2 ≤ evalScore a.2

instance : DecidableRel kvGE := fun a b =>
  inferInstanceAs (Decidable (evalScore b.2 ≤ evalScore a.2))

instance : IsTotal (String × Doc) kvGE :=
  ⟨fun a b => (le_total (evalScore b.2) (evalScore a.2)).imp id id⟩

instance : IsTrans (String × Doc) kvGE :=
  ⟨fun _ _ _ h1 h2 => le_trans h2 h1⟩

/-- The per-document body of `Curator.evaluate_documents`: coerce the
score (dropping the document when the coercion raises), keep the
document when the score meets the threshold or the source is the
company website, attaching `evaluation = {overall_score, query}`. -/
def evalOne (d : Doc) : Option Doc :=
  match coerceScore d.score with
  | none => none
  | some q =>
      if relevance_threshold ≤ q ∨ d.source = some "company_website" then
        some { d with evaluation := some ⟨q, d.query⟩ }
      else none

/-- `Curator.evaluate_documents` (curator.py lines 28-85): evaluate
each document, then sort descending by `evaluation.overall_score`.
Python's `list.sort` is stable; the stable `insertionSort` with the
reflexive-total descending relation computes the same list. -/
def evaluate_documents (docs : List Doc) : List Doc :=
  List.insertionSort docGE (docs.filterMap evalOne)

/-- Lookup in an insertion-ordered dict (first matching key). -/
def pyLookup {V : Type} (d : List (String × V)) (k : String) : Option V :=
  (d.find? (fun p => p.1 == k)).map (fun p => p.2)

/-- `k in d`. -/
def pyMember {V : Type} (d : List (String × V)) (k : String) : Bool :=
  (pyLookup d k).isSome

/-- `d[k] = v` on a CPython (insertion-ordered) dict: replace in place
when the key exists, else append. -/
def pyInsert {V : Type} (d : List (String × V)) (k : String) (v : V) :
    List (String × V) :=
  if pyMember d k then
    d.map (fun p => if p.1 == k then (k, v) else p)
  else d ++ [(k, v)]

/-- The body of the dedup loop of `Curator.curate_data`
(lines 128-141), with the dict built so far as accumulator: for each
raw `(url, doc)` pair in iteration order, normalize the URL (skipping
the document when parsing raises — the `except Exception: continue`),
and if the normalized URL is not yet a key, store the document tagged
with `url = clean_url` and `doc_type`. -/
def dedupGo (vh : List Char → Bool) (dt : String) :
    List (String × Doc) → List (String × Doc) → List (String × Doc)
  | [], acc => acc
  | p :: rest, acc =>
      match normalizeUrl vh p.1 with
      | none => dedupGo vh dt rest acc
      | some clean =>
          if pyMember acc clean then dedupGo vh dt rest acc
          else
            dedupGo vh dt rest
              (acc ++ [(clean, { p.2 with url := clean, doc_type := some dt })])

/-- The URL-normalizing dedup of `Curator.curate_data`: run the loop
starting from the empty `unique_docs` dict.  First occurrence of a
normalized URL wins; later duplicates are skipped. -/
def dedupNormalize (vh : List Char → Bool) (data : List (String × Doc))
    (dt : String) : List (String × Doc) :=
  dedupGo vh dt data []

/-- The per-category body of `Curator.curate_data` (lines 123-182):
dedup/normalize, evaluate, then re-key by URL
(`{doc['url']: doc for doc in evaluated_docs}`; the keys are pairwise
distinct since they come out of the `unique_docs` dict), sort the
items descending by score, cap at 30, and store the result.  `none`
models the `continue` branches where the category stores nothing
(no input data, or no evaluated documents). -/
def curate_category (vh : List Char → Bool) (data : List (String × Doc))
    (dt : String) : Option (List (String × Doc)) :=
  if data = [] then none
  else
    let uniq := dedupNormalize vh data dt
    let evaluated := evaluate_documents (uniq.map (fun p => p.2))
    if evaluated = [] then none
    else
      let relevant := evaluated.foldl (fun acc d => pyInsert acc d.url d) []
      let sortedItems := List.insertionSort kvGE relevant
      some (if 30 < sortedItems.length then sortedItems.take 30 else sortedItems)

/-!
## Briefing orchestrator (`backend/nodes/briefing.py`)

`create_briefings` builds one synthesis task per category with
non-empty curated data and runs them under `asyncio.Semaphore(2)` with
`asyncio.gather` (no `return_exceptions`), so the first exception
propagates out of `create_briefings` and the `state['briefings'] =
briefings` assignment on line 296 is never reached.  The external LLM
call is abstracted as `completion : RCategory → Except String String`
(`.error` = the service raised).  The cooperative schedule is
linearized in task order; this is faithful for the observables proved
here (whether the call raises, and the `briefings` key), which do not
depend on the interleaving.
-/

/-- The four research categories, in the iteration order of the
`categories` dict of `create_briefings`. -/
inductive RCategory where
  | financial
  | news
  | industry
  | company
deriving DecidableEq, Repr

/-- The `category` string of each task. -/
def catName : RCategory → String
  | .financial => "financial"
  | .news => "news"
  | .industry => "industry"
  | .company => "company"

/-- Iteration order of the `categories` dict literal. -/
def categoryOrder : List RCategory :=
  [.financial, .news, .industry, .company]

/-- The slice of `ResearchState` that `create_briefings` touches.
`briefings = none` models the `'briefings'` key being absent. -/
structure BriefingState where
  curated_financial_data : List (String × Doc)
  curated_news_data : List (String × Doc)
  curated_industry_data : List (String × Doc)
  curated_company_data : List (String × Doc)
  financial_briefing : Option String
  news_briefing : Option String
  industry_briefing : Option String
  company_briefing : Option String
  briefings : Option (List (String × String))
deriving DecidableEq, Repr

/-- `state.get(f'curated_{data_field}', {})`. -/
def curatedFor (st : BriefingState) : RCategory → List (String × Doc)
  | .financial => st.curated_financial_data
  | .news => st.curated_news_data
  | .industry => st.curated_industry_data
  | .company => st.curated_company_data

/-- `state[briefing_key] = s`. -/
def setBriefing (st : BriefingState) (c : RCategory) (s : String) :
    BriefingState :=
  match c with
  | .financial => { st with financial_briefing := some s }
  | .news => { st with news_briefing := some s }
  | .industry => { st with industry_briefing := some s }
  | .company => { st with company_briefing := some s }

/-- Python `str.strip()` on the ASCII whitespace the pipeline ever
produces (space, `\t`, `\n`, `\r`, `\v`, `\f`). -/
def pyWsChar (c : Char) : Bool :=
  c = ' ' || c = '\t' || c = '\n' || c = '\r' || c.toNat = 11 || c.toNat = 12

/-- `s.strip()`. -/
def pyStrip (s : String) : String :=
  ⟨((s.data.dropWhile pyWsChar).reverse.dropWhile pyWsChar).reverse⟩

/-- Outcome of one briefing task (`generate_category_briefing`
lines 169-202 consumed by `process_briefing` lines 257-283): a raised
LLM call becomes `RuntimeError('Fatal API error - ...')`; an empty
completion yields `content = ''`, and a `''` (possibly
after `.strip()`) result makes `process_briefing` raise
`RuntimeError('Empty briefing generated ...')`; otherwise the stripped
content is the briefing. -/
def taskOutcome (r : Except String String) : Except String String :=
  match r with
  | .error e => .error ("Fatal API error - briefing generation failed: " ++ e)
  | .ok content =>
      if content = "" then .error "Empty briefing generated"
      else if pyStrip content = "" then .error "Empty briefing generated"
      else .ok (pyStrip content)

/-- Run the briefing tasks in order: each success writes the category's
briefing field and appends to the `briefings` accumulator; the first
failure aborts with its error (the remaining tasks' writes never reach
the observables modelled here). -/
def runTasks (completion : RCategory → Except String String) :
    List RCategory → BriefingState → List (String × String) →
    BriefingState × List (String × String) × Option String
  | [], st, acc => (st, acc, none)
  | c :: rest, st, acc =>
      match taskOutcome (completion c) with
      | .error e => (st, acc, some e)
      | .ok content =>
          runTasks completion rest (setBriefing st c content)
            (acc ++ [(catName c, content)])

/-- `Briefing.create_briefings` (lines 204-297): pre-set the briefing
field of data-less categories to `""`, run the tasks of the others, and
only on overall success store the accumulated `briefings` dict
(line 296 — unreached when `asyncio.gather` raises).  The second
component is the exception carried out of the call (`none` = returned
normally). -/
def create_briefings (st : BriefingState)
    (completion : RCategory → Except String String) :
    BriefingState × Option String :=
  let st1 := categoryOrder.foldl
    (fun s c => if curatedFor st c = [] then setBriefing s c "" else s) st
  let tasks := categoryOrder.filter (fun c => !(curatedFor st c = []))
  if tasks = [] then ({ st1 with briefings := some [] }, none)
  else
    let r := runTasks completion tasks st1 []
    match r.2.2 with
    | some e => (r.1, some e)
    | none => ({ r.1 with briefings := some r.2.1 }, none)

/-!
## Editor / report compiler (`backend/nodes/editor.py`)

`content_sweep` streams the cleanup completion; the stream is modelled
as the list of text deltas it produces, plus a flag saying whether the
stream raises after those deltas (`errMsg` is `str(e)`).  A run of
`content_sweep` is its ordered sequence of yields: `report_chunk`
events, possibly one `error` event, and exactly one bare-string yield
(the accumulated text on success, the untouched input on failure).
`edit_report` consumes that sequence; the forwarding of dict events
into the process-wide `job_status` log is not modelled (the event list
itself is the observable), and `state['editor']` is modelled by the
single `editor_report` field it carries here.
-/

/-- One yield of `content_sweep`: a `report_chunk` dict, an `error`
dict, or a bare string. -/
inductive SweepEvent where
  | chunkEv (s : String)
  | errEv (msg : String)
  | strEv (s : String)
deriving DecidableEq, Repr

/-- The phase-2 stream: the text deltas produced before the stream
either completes (`fails = false`) or raises (`fails = true`). -/
structure StreamSpec where
  chunks : List String
  fails : Bool
  errMsg : String
deriving DecidableEq, Repr

/-- `any(char in buffer for char in ['.', '!', '?', '\n'])`. -/
def hasSentenceTerminal (s : String) : Bool :=
  s.data.any (fun c => c = '.' || c = '!' || c = '?' || c = '\n')

/-- The streaming loop of `content_sweep` (lines 254-266): append each
delta to both the accumulator and the buffer; when the buffer contains
a sentence terminal and `len(buffer) > 10`, yield it as a
`report_chunk` and reset it.  Returns the yields plus the final
accumulator and buffer. -/
def sweepFold : List String → String → String →
    List SweepEvent × String × String
  | [], acc, buf => ([], acc, buf)
  | c :: rest, acc, buf =>
      let acc' := acc ++ c
      let buf' := buf ++ c
      if hasSentenceTerminal buf' ∧ 10 < buf'.length then
        let r := sweepFold rest acc' ""
        (SweepEvent.chunkEv buf' :: r.1, r.2)
      else sweepFold rest acc' buf'

/-- `Editor.content_sweep` (lines 230-276): run the streaming loop; on
normal completion flush a non-empty trailing buffer as a final
`report_chunk` and yield `accumulated_text.strip()`; when the stream
raises, yield an `error` event and then `content or ""` (the untouched
phase-1 text). -/
def content_sweep (content : String) (stream : StreamSpec) :
    List SweepEvent :=
  let r := sweepFold stream.chunks "" ""
  if stream.fails then
    r.1 ++ [SweepEvent.errEv stream.errMsg,
            SweepEvent.strEv (if content = "" then "" else content)]
  else
    r.1 ++ (if r.2.2 = "" then [] else [SweepEvent.chunkEv r.2.2]) ++
      [SweepEvent.strEv (pyStrip r.2.1)]

/-- The state fields `edit_report` writes. -/
structure EditorState where
  report : Option String
  status : Option String
  editor_report : Option String
deriving DecidableEq, Repr

/-- `final_report = event` for each bare-string yield
(lines 149-161): the last string yield wins, starting from `""`. -/
def lastStrYield (evs : List SweepEvent) : String :=
  evs.foldl
    (fun acc e => match e with | SweepEvent.strEv s => s | _ => acc) ""

/-- `Editor.edit_report` (lines 123-180), with the phase-1 compilation
result `R` passed in (`edited_report = await self.compile_content(...)`)
and the phase-2 stream abstracted as `stream`.  Empty phase-1 output
returns `""` immediately; otherwise the sweep runs, the final report is
`final_report or edited_report or ""`, and a whitespace-only final
report returns `""` without touching the state; otherwise the report is
stored in `state['report']` and `state['editor']['report']`. -/
def edit_report (st : EditorState) (R : String) (stream : StreamSpec) :
    EditorState × String :=
  if R = "" then (st, "")
  else
    let evs := content_sweep R stream
    let final0 := lastStrYield evs
    let final1 := if final0 = "" then (if R = "" then "" else R) else final0
    if pyStrip final1 = "" then (st, "")
    else
      ({ st with
          report := some final1,
          status := some "editor_complete",
          editor_report := some final1 }, final1)

/-- The `report_chunk` payloads of a sweep run, in order. -/
def chunkStrings (evs : List SweepEvent) : List String :=
  evs.filterMap
    (fun e => match e with | SweepEvent.chunkEv s => some s | _ => none)

/-!
## Researcher search fan-out (`backend/nodes/researchers/base.py`)

`search_documents` runs one Tavily query per search string with
`asyncio.gather(..., return_exceptions=True)` and then merges, in
query order, every item of every successful result into a dict keyed
by URL.  A search result item is a dict; `_process_search_result`
normalizes it to a document or rejects it.  The title cleaner
`clean_title` lives in `backend/utils/references.py` (an external
collaborator per the spec) and is abstracted as a parameter. -/

/-- A raw Tavily result item (`{title, url, content, raw_content?,
score}`); `none` models an absent key. -/
structure SearchItem where
  title : Option String
  url : Option String
  content : Option String
  raw_content : Option String
  score : ScoreField
deriving DecidableEq, Repr

/-- Python truthiness of `d.get(k)` for a string field: falsy when the
key is absent or the value is the empty string. -/
def falsyOptStr (o : Option String) : Bool :=
  match o with
  | none => true
  | some s => s = ""

/-- `str.lower`, as it acts on the ASCII titles/URLs compared here. -/
def pyLower (s : String) : String :=
  ⟨s.data.map lowerChar⟩

/-- `BaseResearcher._process_search_result` (lines 210-237): reject the
item when `content` or `url` is missing/empty; clean the title
(blanking it when empty or equal to the URL case-insensitively); build
the document dict with `source = "web_search"` and the item's score
(defaulting to `0.0`). -/
def process_search_result (cleanTitle : String → String)
    (item : SearchItem) (query : String) : Option Doc :=
  if falsyOptStr item.content || falsyOptStr item.url then none
  else
    let url := item.url.getD ""
    let t0 :=
      match item.title with
      | none => ""
      | some t => if t = "" then "" else cleanTitle t
    let title := if t0 = "" || pyLower t0 = pyLower url then "" else t0
    some
      { url := url,
        title := title,
        content := item.content.getD "",
        raw_content := none,
        source := some "web_search",
        score := match item.score with | .missing => .num 0 | s => s,
        query := query,
        doc_type := none,
        evaluation := none }

/-- The merge loops of `search_documents` (lines 272-282): iterate the
`(query, result)` pairs in order, skip failed queries (which only emit
a `query_error` event), and for each processed item of a successful
result execute `merged_docs[doc['url']] = doc` — so a later write for
the same URL overwrites an earlier one.  `mergeItems` is the inner
loop over one result's items. -/
def mergeItems (cleanTitle : String → String) (q : String) :
    List SearchItem → List (String × Doc) → List (String × Doc)
  | [], m => m
  | item :: rest, m =>
      match process_search_result cleanTitle item q with
      | none => mergeItems cleanTitle q rest m
      | some doc => mergeItems cleanTitle q rest (pyInsert m doc.url doc)

/-- Outer merge loop over the `(query, result)` pairs. -/
def mergeBatches (cleanTitle : String → String) :
    List (String × Except String (List SearchItem)) →
    List (String × Doc) → List (String × Doc)
  | [], m => m
  | qr :: rest, m =>
      match qr.2 with
      | .error _ => mergeBatches cleanTitle rest m
      | .ok items =>
          mergeBatches cleanTitle rest (mergeItems cleanTitle qr.1 items m)

/-- The full merge of `search_documents`, starting from the empty
`merged_docs` dict. -/
def search_documents_merge (cleanTitle : String → String)
    (batches : List (String × Except String (List SearchItem))) :
    List (String × Doc) :=
  mergeBatches cleanTitle batches []

/-- All documents processed by the merge loop, in processing order
(failed queries contribute nothing). -/
def processedDocs (cleanTitle : String → String)
    (batches : List (String × Except String (List SearchItem))) :
    List Doc :=
  (batches.map
    (fun qr =>
      match qr.2 with
      | .error _ => []
      | .ok items =>
          items.filterMap
            (fun item => process_search_result cleanTitle item qr.1))).flatten

/-- The specification-side description of the merge: for each URL, the
last processed document with that URL. -/
def lastDocFor (cleanTitle : String → String)
    (batches : List (String × Except String (List SearchItem)))
    (u : String) : Option Doc :=
  (processedDocs cleanTitle batches).reverse.find? (fun d => d.url == u)

/-!
## Small auxiliary combinators used by the specification-side
statements and proofs. -/

/-- Concatenation of a list of strings, in order. -/
def strConcat : List String → String
  | [] => ""
  | s :: t => s ++ strConcat t

/-- Invariant linking a (path, params) pair to the `_splitparams` step
that produced it inside `urlparse`: either the split was skipped (scheme
not in `uses_params`, or no `';'` in the path part), or the pair is the
result of `splitParams` on some `';'`-containing input. -/
def paramsOK (sch pa pr : List Char) : Prop :=
  (sch ∉ usesParams ∧ pr = []) ∨ (pr = [] ∧ ';' ∉ pa) ∨
  (sch ∈ usesParams ∧ ∃ p2, ';' ∈ p2 ∧ splitParams p2 = (pa, pr))

/-!
## Dict lemmas
-/

theorem pyLookup_nil {V : Type} (k : String) :
    pyLookup ([] : List (String × V)) k = none := rfl

theorem pyLookup_cons {V : Type} (p : String × V) (d : List (String × V))
    (k : String) :
    pyLookup (p :: d) k = if p.1 == k then some p.2 else pyLookup d k := by
  simp only [pyLookup, List.find?_cons]
  cases hb : p.1 == k <;> simp [hb]

theorem pyLookup_append {V : Type} (d1 d2 : List (String × V)) (k : String) :
    pyLookup (d1 ++ d2) k = (pyLookup d1 k).or (pyLookup d2 k) := by
  induction d1 with
  | nil => simp [pyLookup_nil, Option.or]
  | cons p t ih =>
      rw [List.cons_append, pyLookup_cons, pyLookup_cons]
      cases hb : p.1 == k
      · simp [hb, ih]
      · simp [hb, Option.or]

theorem pyLookup_single {V : Type} (k k' : String) (v : V) :
    pyLookup [(k, v)] k' = if k == k' then some v else none := by
  rw [pyLookup_cons]; rfl

theorem pyMember_iff {V : Type} (d : List (String × V)) (k : String) :
    pyMember d k = true ↔ ∃ v, pyLookup d k = some v := by
  simp [pyMember, Option.isSome_iff_exists]

theorem pyLookup_map_ne {V : Type} (d : List (String × V)) (k k' : String)
    (v : V) (h : k' ≠ k) :
    pyLookup (d.map (fun p => if p.1 == k then (k, v) else p)) k'
      = pyLookup d k' := by
  induction d with
  | nil => rfl
  | cons p t ih =>
      rw [List.map_cons]
      cases hb : p.1 == k
      · rw [if_neg (by simp [hb]), pyLookup_cons, pyLookup_cons, ih]
      · rw [if_pos (by simp [hb]), pyLookup_cons, pyLookup_cons, ih]
        have h1 : ((k, v).1 == k') = false := by
          simp [beq_iff_eq]; exact fun hh => h hh.symm
        have h2 : (p.1 == k') = false := by
          have : p.1 = k := beq_iff_eq.mp hb
          simp [beq_iff_eq, this]; exact fun hh => h hh.symm
        rw [h1, h2]
        simp

theorem pyLookup_map_self {V : Type} (d : List (String × V)) (k : String)
    (v : V) (h : pyMember d k = true) :
    pyLookup (d.map (fun p => if p.1 == k then (k, v) else p)) k
      = some v := by
  induction d with
  | nil => simp [pyMember, pyLookup] at h
  | cons p t ih =>
      rw [List.map_cons]
      cases hb : p.1 == k
      · rw [if_neg (by simp [hb]), pyLookup_cons, hb, if_neg (by simp)]
        apply ih
        rcases (pyMember_iff _ _).mp h with ⟨w, hw⟩
        rw [pyLookup_cons, hb, if_neg (by simp)] at hw
        exact (pyMember_iff _ _).mpr ⟨w, hw⟩
      · rw [if_pos (by simp [hb]), pyLookup_cons]
        simp

theorem pyLookup_insert {V : Type} (d : List (String × V)) (k k' : String)
    (v : V) :
    pyLookup (pyInsert d k v) k'
      = if k' = k then some v else pyLookup d k' := by
  unfold pyInsert
  by_cases hm : pyMember d k = true
  · rw [if_pos hm]
    by_cases hk : k' = k
    · subst hk; rw [if_pos rfl]; exact pyLookup_map_self d k' v hm
    · rw [if_neg hk]; exact pyLookup_map_ne d k k' v hk
  · rw [if_neg hm, pyLookup_append, pyLookup_single]
    by_cases hk : k' = k
    · subst hk
      have hnone : pyLookup d k' = none := by
        rcases h : pyLookup d k' with _ | w
        · rfl
        · exact absurd ((pyMember_iff _ _).mpr ⟨w, h⟩) hm
      rw [hnone, if_pos rfl]
      simp [Option.or, beq_iff_eq]
    · have hb : (k == k') = false := by
        simp [beq_iff_eq]; exact fun hh => hk hh.symm
      rw [hb, if_neg hk]
      cases pyLookup d k' <;> rfl

/-!
## Curator dedup: first normalized occurrence wins (C7)
-/

theorem dedupGo_lookup (vh : List Char → Bool) (dt : String)
    (rest : List (String × Doc)) (acc : List (String × Doc)) (u : String) :
    pyLookup (dedupGo vh dt rest acc) u
      = (pyLookup acc u).or
          ((rest.find? (fun p => normalizeUrl vh p.1 == some u)).map
            (fun p => { p.2 with url := u, doc_type := some dt })) := by
  induction rest generalizing acc with
  | nil =>
      simp only [dedupGo, List.find?_nil, Option.map_none']
      cases pyLookup acc u <;> rfl
  | cons p t ih =>
      simp only [dedupGo, List.find?_cons]
      rcases hp : normalizeUrl vh p.1 with _ | c
      · rw [hp] at *
        dsimp only
        simp only [ih]
        have hfalse : ((none : Option String) == some u) = false := rfl
        rw [hfalse]
      · rw [hp] at *
        dsimp only
        by_cases hc : c = u
        · subst hc
          have hpred : ((some c : Option String) == some c) = true := by simp
          rw [hpred]
          dsimp only
          by_cases hm : pyMember acc c = true
          · rw [if_pos hm, ih]
            rcases (pyMember_iff _ _).mp hm with ⟨w, hw⟩
            rw [hw]; rfl
          · rw [if_neg hm, ih, pyLookup_append, pyLookup_single]
            have hnone : pyLookup acc c = none := by
              rcases h : pyLookup acc c with _ | w
              · rfl
              · exact absurd ((pyMember_iff _ _).mpr ⟨w, h⟩) hm
            rw [hnone]
            simp only [beq_self_eq_true, if_pos]
            rfl
        · have hpred : ((some c : Option String) == some u) = false := by
            simp [hc]
          rw [hpred]
          dsimp only
          by_cases hm : pyMember acc c = true
          · rw [if_pos hm, ih]
          · rw [if_neg hm, ih, pyLookup_append, pyLookup_single]
            have hb : (c == u) = false := by simp [hc]
            rw [hb]
            simp only [Bool.false_eq_true, if_neg]
            cases pyLookup acc u <;> rfl

/-- C7.  In `curate_data`'s deduplication, the dict entry stored for a
normalized URL `u` is exactly the first raw entry (in iteration order)
whose URL normalizes to `u`, tagged with `url = u` and the category
`doc_type`; every later entry normalizing to `u` is discarded. -/
theorem curate_dedup_first_wins (vh : List Char → Bool)
    (data : List (String × Doc)) (dt : String) (u : String) :
    pyLookup (dedupNormalize vh data dt) u
      = (data.find? (fun p => normalizeUrl vh p.1 == some u)).map
          (fun p => { p.2 with url := u, doc_type := some dt }) := by
  unfold dedupNormalize
  rw [dedupGo_lookup, pyLookup_nil]
  rfl

/-!
## Researcher merge: last processed document wins (C8), and merged
documents are well-formed (C10)
-/

theorem mergeItems_lookup (ct : String → String) (q : String)
    (items : List SearchItem) (m : List (String × Doc)) (u : String) :
    pyLookup (mergeItems ct q items m) u
      = ((items.filterMap
            (fun it => process_search_result ct it q)).reverse.find?
            (fun d => d.url == u)).or (pyLookup m u) := by
  induction items generalizing m with
  | nil =>
      simp only [mergeItems, List.filterMap_nil, List.reverse_nil,
        List.find?_nil]
      rfl
  | cons it t ih =>
      simp only [mergeItems]
      rcases hp : process_search_result ct it q with _ | doc
      · rw [ih, List.filterMap_cons, hp]
      · rw [ih, List.filterMap_cons, hp, List.reverse_cons, List.find?_append,
            pyLookup_insert]
        by_cases hu : u = doc.url
        · have hb : (doc.url == u) = true := by simp [beq_iff_eq, hu]
          simp only [List.find?_cons, hb, if_pos hu, List.find?_nil]
          cases ((t.filterMap
            (fun it => process_search_result ct it q)).reverse.find?
            (fun d => d.url == u)) <;> rfl
        · have hb : (doc.url == u) = false := by
            simp [beq_iff_eq]; exact fun hh => hu hh.symm
          simp only [List.find?_cons, hb, if_neg hu, List.find?_nil]
          cases ((t.filterMap
            (fun it => process_search_result ct it q)).reverse.find?
            (fun d => d.url == u)) <;> rfl

theorem mergeBatches_lookup (ct : String → String)
    (batches : List (String × Except String (List SearchItem)))
    (m : List (String × Doc)) (u : String) :
    pyLookup (mergeBatches ct batches m) u
      = ((processedDocs ct batches).reverse.find?
          (fun d => d.url == u)).or (pyLookup m u) := by
  induction batches generalizing m with
  | nil =>
      simp only [mergeBatches, processedDocs, List.map_nil, List.flatten_nil,
        List.reverse_nil, List.find?_nil]
      rfl
  | cons qr rest ih =>
      simp only [mergeBatches, processedDocs, List.map_cons, List.flatten]
      rcases hq : qr.2 with e | items
      · rw [ih]
        simp only [List.nil_append]
        rfl
      · rw [ih, mergeItems_lookup, List.reverse_append, List.find?_append]
        have : (processedDocs ct rest).reverse.find? (fun d => d.url == u)
            = ((rest.map (fun qr => match qr.2 with
                | Except.error _ => []
                | Except.ok items => items.filterMap
                    (fun item => process_search_result ct item qr.1))).flatten).reverse.find?
              (fun d => d.url == u) := by
          rfl
        rw [this]
        cases ((rest.map (fun qr => match qr.2 with
                | Except.error _ => []
                | Except.ok items => items.filterMap
                    (fun item => process_search_result ct item qr.1))).flatten).reverse.find?
              (fun d => d.url == u) <;> rfl

/-- C8.  In `search_documents`' merge of per-query results into the
URL-keyed `merged_docs` dict, the stored document for any URL is the
one produced by the LAST processed `(query, item)` pair with that URL —
so when two successful queries yield results with the same URL, the
later-processed query wins the collision (unlike the curator's
first-wins dedup). -/
theorem search_documents_merge_last_wins (ct : String → String)
    (batches : List (String × Except String (List SearchItem)))
    (u : String) :
    pyLookup (search_documents_merge ct batches) u = lastDocFor ct batches u := by
  unfold search_documents_merge lastDocFor
  rw [mergeBatches_lookup, pyLookup_nil]
  cases (processedDocs ct batches).reverse.find? (fun d => d.url == u) <;> rfl

theorem falsyOptStr_eq_false (o : Option String) :
    falsyOptStr o = false ↔ ∃ s, o = some s ∧ s ≠ "" := by
  rcases o with _ | s
  · simp [falsyOptStr]
  · by_cases h : s = "" <;> simp [falsyOptStr, h]

theorem process_search_result_props (ct : String → String)
    (item : SearchItem) (q : String) (doc : Doc)
    (h : process_search_result ct item q = some doc) :
    doc.url ≠ "" ∧ doc.content ≠ "" := by
  unfold process_search_result at h
  by_cases hc : (falsyOptStr item.content || falsyOptStr item.url) = true
  · rw [if_pos hc] at h; exact absurd h (by simp)
  · rw [if_neg hc] at h
    have hor : (falsyOptStr item.content || falsyOptStr item.url) = false :=
      Bool.not_eq_true _ |>.mp hc |> (fun hh => by
        cases hcase : (falsyOptStr item.content || falsyOptStr item.url)
        · rfl
        · exact absurd hcase hc)
    rcases Bool.or_eq_false_iff.mp hor with ⟨hcc, hcu⟩
    rcases (falsyOptStr_eq_false _).mp hcc with ⟨sc, hsc, hscne⟩
    rcases (falsyOptStr_eq_false _).mp hcu with ⟨su, hsu, hsune⟩
    have hd := h.symm
    simp only [Option.some.injEq] at hd
    have hu : doc.url = su := by
      rw [hd]; simp [hsu]
    have hcnt : doc.content = sc := by
      rw [hd]; simp [hsc]
    exact ⟨hu ▸ hsune, hcnt ▸ hscne⟩

/-- C10.  Every search-result item with a missing/empty `content` or
`url` is excluded from `search_documents`' merge, and consequently
every document in the merged `merged_docs` map has a non-empty `url`
(which is its key) and non-empty `content`. -/
theorem search_documents_merge_valid (ct : String → String)
    (batches : List (String × Except String (List SearchItem)))
    (u : String) (d : Doc) (item : SearchItem) (q : String) :
    ((falsyOptStr item.content || falsyOptStr item.url) = true →
      process_search_result ct item q = none) ∧
    (pyLookup (search_documents_merge ct batches) u = some d →
      d.url = u ∧ d.url ≠ "" ∧ d.content ≠ "") := by
  constructor
  · intro h
    unfold process_search_result
    rw [if_pos h]
  · intro h
    unfold search_documents_merge at h
    rw [mergeBatches_lookup, pyLookup_nil] at h
    have hfind : (processedDocs ct batches).reverse.find?
        (fun x => x.url == u) = some d := by
      rcases hf : (processedDocs ct batches).reverse.find?
          (fun x => x.url == u) with _ | w
      · rw [hf] at h; exact absurd h (by simp [Option.or])
      · rw [hf] at h
        have : some w = some d := h
        rw [← this, hf]
    have hpred := List.find?_some hfind
    have hdu : d.url = u := by
      simp only [beq_iff_eq] at hpred
      exact hpred
    have hmem : d ∈ (processedDocs ct batches).reverse :=
      List.mem_of_find?_eq_some hfind
    rw [List.mem_reverse] at hmem
    unfold processedDocs at hmem
    rw [List.mem_flatten] at hmem
    rcases hmem with ⟨l, hl, hdl⟩
    rw [List.mem_map] at hl
    rcases hl with ⟨qr, _, hqr⟩
    rcases hq : qr.2 with e | items
    · rw [hq] at hqr
      rw [← hqr] at hdl
      exact absurd hdl (by simp)
    · rw [hq] at hqr
      rw [← hqr] at hdl
      rcases List.mem_filterMap.mp hdl with ⟨it, _, hit⟩
      rcases process_search_result_props ct it qr.1 d hit with ⟨h1, h2⟩
      exact ⟨hdu, h1, h2⟩

/-- Witness for C10 at a concrete input. -/
theorem search_documents_merge_valid_witness :
    (((falsyOptStr (some "" : Option String) || falsyOptStr
        (some "http://a/x" : Option String)) = true →
      process_search_result id
        { title := some "T", url := some "http://a/x", content := some "",
          raw_content := none, score := ScoreField.missing } "q1" = none) ∧
    (pyLookup (search_documents_merge id
        [("q1", Except.ok
          [{ title := some "T", url := some "http://a/x",
             content := some "body", raw_content := none,
             score := ScoreField.num 1 }])]) "http://a/x"
        = some { url := "http://a/x", title := "T", content := "body",
                 raw_content := none, source := some "web_search",
                 score := ScoreField.num 1, query := "q1",
                 doc_type := none, evaluation := none } →
      ("http://a/x" : String) = "http://a/x" ∧
        ("http://a/x" : String) ≠ "" ∧ ("body" : String) ≠ "")) ∧
    pyLookup (search_documents_merge id
        [("q1", Except.ok
          [{ title := some "T", url := some "http://a/x",
             content := some "body", raw_content := none,
             score := ScoreField.num 1 }])]) "http://a/x"
      = some { url := "http://a/x", title := "T", content := "body",
               raw_content := none, source := some "web_search",
               score := ScoreField.num 1, query := "q1",
               doc_type := none, evaluation := none } := by
  refine ⟨?_, by decide⟩
  have h := search_documents_merge_valid id
    [("q1", Except.ok
      [{ title := some "T", url := some "http://a/x",
         content := some "body", raw_content := none,
         score := ScoreField.num 1 }])]
    "http://a/x"
    { url := "http://a/x", title := "T", content := "body",
      raw_content := none, source := some "web_search",
      score := ScoreField.num 1, query := "q1",
      doc_type := none, evaluation := none }
    { title := some "T", url := some "http://a/x", content := some "",
      raw_content := none, score := ScoreField.missing } "q1"
  exact ⟨h.1, fun hl => h.2 hl⟩

/-!
## Curator evaluation: threshold filter and the company-website
exemption (C2), and the curated-set invariants (C4)
-/

theorem evalOne_eq_some (d d' : Doc) :
    evalOne d = some d' ↔ ∃ q : ℚ, coerceScore d.score = some q ∧
      (relevance_threshold ≤ q ∨ d.source = some "company_website") ∧
      d' = { d with evaluation := some ⟨q, d.query⟩ } := by
  unfold evalOne
  rcases hq : coerceScore d.score with _ | q
  · simp
  · dsimp only
    by_cases hc : relevance_threshold ≤ q ∨ d.source = some "company_website"
    · rw [if_pos hc]
      constructor
      · intro h
        exact ⟨q, rfl, hc, (Option.some.injEq _ _ ▸ h).symm⟩
      · rintro ⟨q', hq', _, hd'⟩
        have : q' = q := (Option.some_inj.mp hq').symm
        rw [hd', this]
    · rw [if_neg hc]
      constructor
      · intro h; exact absurd h (by simp)
      · rintro ⟨q', hq', hcond, _⟩
        have : q' = q := (Option.some_inj.mp hq').symm
        exact absurd (this ▸ hcond) hc

theorem mem_evaluate_documents (docs : List Doc) (d' : Doc) :
    d' ∈ evaluate_documents docs ↔ ∃ d ∈ docs, evalOne d = some d' := by
  unfold evaluate_documents
  rw [(List.perm_insertionSort docGE _).mem_iff, List.mem_filterMap]

/-- C2 (amended).  (1) Every document returned by `evaluate_documents`
comes from an input document whose score coerces to some `q` with
`q ≥ 0.4` or `source == "company_website"` — so every document with a
parsed score below the threshold and a non-website source, and every
document whose score fails to coerce (regardless of source), is
excluded.  (2) Every company-website document whose score coerces (in
particular one with a missing score, which defaults to 0) is included,
whatever its score value. -/
theorem evaluate_documents_score_filter :
    (∀ (docs : List Doc) (d' : Doc), d' ∈ evaluate_documents docs →
      ∃ d ∈ docs, ∃ q : ℚ, coerceScore d.score = some q ∧
        (relevance_threshold ≤ q ∨ d.source = some "company_website") ∧
        d' = { d with evaluation := some ⟨q, d.query⟩ }) ∧
    (∀ (docs : List Doc) (d : Doc) (q : ℚ), d ∈ docs →
      d.source = some "company_website" → coerceScore d.score = some q →
      { d with evaluation := some ⟨q, d.query⟩ } ∈ evaluate_documents docs) := by
  constructor
  · intro docs d' hmem
    rcases (mem_evaluate_documents docs d').mp hmem with ⟨d, hd, he⟩
    rcases (evalOne_eq_some d d').mp he with ⟨q, hq, hc, hd'⟩
    exact ⟨d, hd, q, hq, hc, hd'⟩
  · intro docs d q hd hsrc hq
    refine (mem_evaluate_documents docs _).mpr ⟨d, hd, ?_⟩
    exact (evalOne_eq_some d _).mpr ⟨q, hq, Or.inr hsrc, rfl⟩

/-- Counterexample to C2 as stated: for a company-website document,
inclusion is NOT independent of the score field — a score string that
fails to parse as a float makes `float(...)` raise, and the
`except (ValueError, TypeError): continue` drops the document even
though its source is `company_website`, while the same document with a
parseable low score is kept. -/
theorem evaluate_documents_website_score_dependence :
    evaluate_documents
        [{ url := "https://co.example", title := "t", content := "c",
           raw_content := none, source := some "company_website",
           score := ScoreField.strBad, query := "q", doc_type := none,
           evaluation := none }] = [] ∧
    evaluate_documents
        [{ url := "https://co.example", title := "t", content := "c",
           raw_content := none, source := some "company_website",
           score := ScoreField.num (mkRat 1 10), query := "q",
           doc_type := none, evaluation := none }] ≠ [] := by
  decide

/-- Witness for C2 (amended) at a concrete input. -/
theorem evaluate_documents_score_filter_witness :
    ({ url := "https://co.example", title := "t", content := "c",
       raw_content := none, source := some "company_website",
       score := ScoreField.missing, query := "q", doc_type := none,
       evaluation := (none : Option EvalInfo) } ∈
        ([{ url := "https://co.example", title := "t", content := "c",
            raw_content := none, source := some "company_website",
            score := ScoreField.missing, query := "q", doc_type := none,
            evaluation := none }] : List Doc)) ∧
    ({ url := "https://co.example", title := "t", content := "c",
       raw_content := none, source := some "company_website",
       score := ScoreField.missing, query := "q", doc_type := none,
       evaluation := some ⟨0, "q"⟩ } ∈
      evaluate_documents
        [{ url := "https://co.example", title := "t", content := "c",
           raw_content := none, source := some "company_website",
           score := ScoreField.missing, query := "q", doc_type := none,
           evaluation := none }]) := by
  refine ⟨by decide, ?_⟩
  exact evaluate_documents_score_filter.2
    [{ url := "https://co.example", title := "t", content := "c",
       raw_content := none, source := some "company_website",
       score := ScoreField.missing, query := "q", doc_type := none,
       evaluation := none }]
    { url := "https://co.example", title := "t", content := "c",
      raw_content := none, source := some "company_website",
      score := ScoreField.missing, query := "q", doc_type := none,
      evaluation := none }
    0 (by decide) (by decide) (by decide)

theorem pyInsert_forall {V : Type} (P : String × V → Prop)
    (d : List (String × V)) (k : String) (v : V)
    (hd : ∀ p ∈ d, P p) (hv : P (k, v)) :
    ∀ p ∈ pyInsert d k v, P p := by
  intro p hp
  unfold pyInsert at hp
  by_cases hm : pyMember d k = true
  · rw [if_pos hm] at hp
    rcases List.mem_map.mp hp with ⟨q, hq, hfq⟩
    by_cases hqk : (q.1 == k) = true
    · rw [if_pos hqk] at hfq; exact hfq ▸ hv
    · rw [if_neg hqk] at hfq; exact hfq ▸ hd q hq
  · rw [if_neg hm] at hp
    rcases List.mem_append.mp hp with h | h
    · exact hd p h
    · rcases List.mem_singleton.mp h with rfl
      exact hv

theorem foldl_pyInsert_forall {V : Type} (P : String × V → Prop)
    (key : V → String) :
    ∀ (l : List V) (acc : List (String × V)),
      (∀ p ∈ acc, P p) → (∀ v ∈ l, P (key v, v)) →
      ∀ p ∈ l.foldl (fun a v => pyInsert a (key v) v) acc, P p := by
  intro l
  induction l with
  | nil => intro acc hacc _ p hp; exact hacc p hp
  | cons v t ih =>
      intro acc hacc hl p hp
      rw [List.foldl_cons] at hp
      exact ih (pyInsert acc (key v) v)
        (pyInsert_forall P acc (key v) v hacc (hl v (List.mem_cons_self v t)))
        (fun w hw => hl w (List.mem_cons_of_mem v hw)) p hp

theorem cap30_props {P : Doc → Prop} (s : List (String × Doc))
    (hsorted : List.Pairwise kvGE s) (hQ : ∀ p ∈ s, P p.2) :
    (if 30 < s.length then s.take 30 else s).length ≤ 30 ∧
    (∀ p ∈ (if 30 < s.length then s.take 30 else s), P p.2) ∧
    List.Pairwise kvGE (if 30 < s.length then s.take 30 else s) := by
  by_cases hl : 30 < s.length
  · rw [if_pos hl]
    refine ⟨?_, ?_, ?_⟩
    · rw [List.length_take]; omega
    · intro p hp
      exact hQ p ((List.take_sublist 30 s).mem hp)
    · exact hsorted.sublist (List.take_sublist 30 s)
  · rw [if_neg hl]
    exact ⟨by omega, hQ, hsorted⟩

/-- C4.  Every per-category curated map produced by `curate_data` has
at most 30 entries; every member carries an `evaluation` whose
`overall_score` meets the 0.4 threshold or has
`source == "company_website"`; and iterating the stored
(insertion-ordered) map yields documents in descending order of
`evaluation.overall_score`. -/
theorem curate_category_invariants (vh : List Char → Bool)
    (data : List (String × Doc)) (dt : String) (m : List (String × Doc))
    (h : curate_category vh data dt = some m) :
    m.length ≤ 30 ∧
    (∀ p ∈ m, ∃ e, p.2.evaluation = some e ∧
      (relevance_threshold ≤ e.overall_score ∨
        p.2.source = some "company_website")) ∧
    List.Pairwise kvGE m := by
  unfold curate_category at h
  by_cases hdata : data = []
  · rw [if_pos hdata] at h
    exact absurd h (by simp)
  · rw [if_neg hdata] at h
    dsimp only at h
    by_cases heval :
        evaluate_documents ((dedupNormalize vh data dt).map (fun p => p.2)) = []
    · rw [if_pos heval] at h
      exact absurd h (by simp)
    · rw [if_neg heval] at h
      have hm := Option.some_inj.mp h
      subst hm
      have hsorted : List.Pairwise kvGE
          (List.insertionSort kvGE
            ((evaluate_documents
              ((dedupNormalize vh data dt).map (fun p => p.2))).foldl
              (fun acc d => pyInsert acc d.url d) [])) :=
        List.sorted_insertionSort kvGE _
      have hQev : ∀ d ∈ evaluate_documents
          ((dedupNormalize vh data dt).map (fun p => p.2)),
          ∃ e, d.evaluation = some e ∧
            (relevance_threshold ≤ e.overall_score ∨
              d.source = some "company_website") := by
        intro d hd
        rcases (mem_evaluate_documents _ _).mp hd with ⟨d0, _, he⟩
        rcases (evalOne_eq_some d0 d).mp he with ⟨q, _, hc, hd'⟩
        subst hd'
        exact ⟨⟨q, d0.query⟩, rfl, hc⟩
      have hQrel : ∀ p ∈ (evaluate_documents
            ((dedupNormalize vh data dt).map (fun p => p.2))).foldl
            (fun acc d => pyInsert acc d.url d) [],
          ∃ e, p.2.evaluation = some e ∧
            (relevance_threshold ≤ e.overall_score ∨
              p.2.source = some "company_website") := by
        intro p hp
        exact foldl_pyInsert_forall
          (fun p => ∃ e, p.2.evaluation = some e ∧
            (relevance_threshold ≤ e.overall_score ∨
              p.2.source = some "company_website"))
          (fun d => d.url) _ [] (by simp) (fun v hv => hQev v hv) p hp
      have hQsort : ∀ p ∈ List.insertionSort kvGE
          ((evaluate_documents
            ((dedupNormalize vh data dt).map (fun p => p.2))).foldl
            (fun acc d => pyInsert acc d.url d) []),
          ∃ e, p.2.evaluation = some e ∧
            (relevance_threshold ≤ e.overall_score ∨
              p.2.source = some "company_website") := by
        intro p hp
        exact hQrel p ((List.perm_insertionSort kvGE _).mem_iff.mp hp)
      exact @cap30_props
        (fun d => ∃ e, d.evaluation = some e ∧
          (relevance_threshold ≤ e.overall_score ∨
            d.source = some "company_website"))
        _ hsorted hQsort

/-- Witness for C4 at a concrete input. -/
theorem curate_category_invariants_witness :
    (curate_category (fun _ => true)
        [("http://a.com/x?q=1",
          { url := "http://a.com/x?q=1", title := "T", content := "c",
            raw_content := none, source := some "web_search",
            score := ScoreField.num (mkRat 1 2), query := "qq",
            doc_type := none, evaluation := none })] "financial"
      = some [("http://a.com/x",
          { url := "http://a.com/x", title := "T", content := "c",
            raw_content := none, source := some "web_search",
            score := ScoreField.num (mkRat 1 2), query := "qq",
            doc_type := some "financial",
            evaluation := some ⟨mkRat 1 2, "qq"⟩ })]) ∧
    (([("http://a.com/x",
        { url := "http://a.com/x", title := "T", content := "c",
          raw_content := none, source := some "web_search",
          score := ScoreField.num (mkRat 1 2), query := "qq",
          doc_type := some "financial",
          evaluation := some ⟨mkRat 1 2, "qq"⟩ })] :
        List (String × Doc)).length ≤ 30 ∧
      (∀ p ∈ ([("http://a.com/x",
          { url := "http://a.com/x", title := "T", content := "c",
            raw_content := none, source := some "web_search",
            score := ScoreField.num (mkRat 1 2), query := "qq",
            doc_type := some "financial",
            evaluation := some ⟨mkRat 1 2, "qq"⟩ })] :
          List (String × Doc)), ∃ e, p.2.evaluation = some e ∧
        (relevance_threshold ≤ e.overall_score ∨
          p.2.source = some "company_website")) ∧
      List.Pairwise kvGE [("http://a.com/x",
          { url := "http://a.com/x", title := "T", content := "c",
            raw_content := none, source := some "web_search",
            score := ScoreField.num (mkRat 1 2), query := "qq",
            doc_type := some "financial",
            evaluation := some ⟨mkRat 1 2, "qq"⟩ })]) := by
  constructor
  · decide
  · exact curate_category_invariants (fun _ => true)
      [("http://a.com/x?q=1",
        { url := "http://a.com/x?q=1", title := "T", content := "c",
          raw_content := none, source := some "web_search",
          score := ScoreField.num (mkRat 1 2), query := "qq",
          doc_type := none, evaluation := none })] "financial"
      [("http://a.com/x",
        { url := "http://a.com/x", title := "T", content := "c",
          raw_content := none, source := some "web_search",
          score := ScoreField.num (mkRat 1 2), query := "qq",
          doc_type := some "financial",
          evaluation := some ⟨mkRat 1 2, "qq"⟩ })]
      (by decide)

/-!
## Briefing orchestrator fail-fast (C1)
-/

theorem setBriefing_briefings (st : BriefingState) (c : RCategory)
    (s : String) : (setBriefing st c s).briefings = st.briefings := by
  cases c <;> rfl

theorem presetEmpty_briefings (st0 : BriefingState) (l : List RCategory) :
    ∀ st : BriefingState,
      (l.foldl (fun s c => if curatedFor st0 c = [] then setBriefing s c ""
        else s) st).briefings = st.briefings := by
  induction l with
  | nil => intro st; rfl
  | cons c t ih =>
      intro st
      rw [List.foldl_cons]
      by_cases hc : curatedFor st0 c = []
      · rw [if_pos hc, ih, setBriefing_briefings]
      · rw [if_neg hc, ih]

theorem runTasks_briefings (completion : RCategory → Except String String)
    (l : List RCategory) :
    ∀ (st : BriefingState) (acc : List (String × String)),
      (runTasks completion l st acc).1.briefings = st.briefings := by
  induction l with
  | nil => intro st acc; rfl
  | cons c t ih =>
      intro st acc
      simp only [runTasks]
      rcases h : taskOutcome (completion c) with e | s
      · rfl
      · rw [ih, setBriefing_briefings]

theorem runTasks_fails (completion : RCategory → Except String String)
    (l : List RCategory) :
    ∀ (st : BriefingState) (acc : List (String × String)),
      (∃ c ∈ l, ∃ e, taskOutcome (completion c) = Except.error e) →
      ((runTasks completion l st acc).2.2).isSome = true := by
  induction l with
  | nil =>
      intro st acc h
      rcases h with ⟨c, hc, _⟩
      exact absurd hc (by simp)
  | cons c t ih =>
      intro st acc h
      simp only [runTasks]
      rcases hout : taskOutcome (completion c) with e | s
      · rfl
      · rcases h with ⟨c', hc', e', he'⟩
        rcases List.mem_cons.mp hc' with rfl | hmem
        · rw [hout] at he'
          exact absurd he' (by simp)
        · exact ih _ _ ⟨c', hmem, e', he'⟩

/-- C1.  If any briefing synthesis task raises — including the case of
an empty completion output, which `process_briefing` turns into
`RuntimeError("Empty briefing generated ...")` — then the whole
`create_briefings` call raises, and the `state['briefings']` key is
never written (the assignment on line 296 is unreached), so
`state['briefings']` contains no entry for any category, in particular
none for the categories evaluated after the failure point. -/
theorem create_briefings_fail_fast (st : BriefingState)
    (completion : RCategory → Except String String)
    (hb : st.briefings = none)
    (hfail : ∃ c ∈ categoryOrder.filter (fun c => !(curatedFor st c = [])),
      ∃ e, taskOutcome (completion c) = Except.error e) :
    ((create_briefings st completion).2).isSome = true ∧
    (create_briefings st completion).1.briefings = none := by
  unfold create_briefings
  have htasks : categoryOrder.filter (fun c => !(curatedFor st c = [])) ≠ [] := by
    rcases hfail with ⟨c, hc, _⟩
    intro hnil
    rw [hnil] at hc
    exact absurd hc (by simp)
  rw [if_neg htasks]
  dsimp only
  have hsome := runTasks_fails completion
    (categoryOrder.filter (fun c => !(curatedFor st c = [])))
    (categoryOrder.foldl
      (fun s c => if curatedFor st c = [] then setBriefing s c "" else s) st)
    [] hfail
  rcases hr : (runTasks completion
      (categoryOrder.filter (fun c => !(curatedFor st c = [])))
      (categoryOrder.foldl
        (fun s c => if curatedFor st c = [] then setBriefing s c "" else s) st)
      []).2.2 with _ | e
  · rw [hr] at hsome
    exact absurd hsome (by simp)
  · dsimp only
    refine ⟨rfl, ?_⟩
    rw [runTasks_briefings, presetEmpty_briefings, hb]

/-- Witness for C1 at a concrete input: two categories have curated
data; the news task gets an empty completion output (its task raises
`Empty briefing generated`), so the call raises and `briefings` is
never written. -/
theorem create_briefings_fail_fast_witness :
    (({ curated_financial_data := [("u1",
          { url := "u1", title := "T", content := "c", raw_content := none,
            source := some "web_search", score := ScoreField.num 1,
            query := "q", doc_type := some "financial",
            evaluation := some ⟨1, "q"⟩ })],
        curated_news_data := [("u2",
          { url := "u2", title := "T2", content := "c2", raw_content := none,
            source := some "web_search", score := ScoreField.num 1,
            query := "q", doc_type := some "news",
            evaluation := some ⟨1, "q"⟩ })],
        curated_industry_data := [], curated_company_data := [],
        financial_briefing := none, news_briefing := none,
        industry_briefing := none, company_briefing := none,
        briefings := none } : BriefingState).briefings = none) ∧
    ((create_briefings
        { curated_financial_data := [("u1",
            { url := "u1", title := "T", content := "c", raw_content := none,
              source := some "web_search", score := ScoreField.num 1,
              query := "q", doc_type := some "financial",
              evaluation := some ⟨1, "q"⟩ })],
          curated_news_data := [("u2",
            { url := "u2", title := "T2", content := "c2",
              raw_content := none, source := some "web_search",
              score := ScoreField.num 1, query := "q",
              doc_type := some "news", evaluation := some ⟨1, "q"⟩ })],
          curated_industry_data := [], curated_company_data := [],
          financial_briefing := none, news_briefing := none,
          industry_briefing := none, company_briefing := none,
          briefings := none }
        (fun c => match c with
          | RCategory.financial => Except.ok "A fine financial briefing."
          | RCategory.news => Except.ok ""
          | _ => Except.ok "other")).2.isSome = true ∧
      (create_briefings
        { curated_financial_data := [("u1",
            { url := "u1", title := "T", content := "c", raw_content := none,
              source := some "web_search", score := ScoreField.num 1,
              query := "q", doc_type := some "financial",
              evaluation := some ⟨1, "q"⟩ })],
          curated_news_data := [("u2",
            { url := "u2", title := "T2", content := "c2",
              raw_content := none, source := some "web_search",
              score := ScoreField.num 1, query := "q",
              doc_type := some "news", evaluation := some ⟨1, "q"⟩ })],
          curated_industry_data := [], curated_company_data := [],
          financial_briefing := none, news_briefing := none,
          industry_briefing := none, company_briefing := none,
          briefings := none }
        (fun c => match c with
          | RCategory.financial => Except.ok "A fine financial briefing."
          | RCategory.news => Except.ok ""
          | _ => Except.ok "other")).1.briefings = none) := by
  refine ⟨rfl, ?_⟩
  exact create_briefings_fail_fast _ _ rfl
    ⟨RCategory.news, by decide, "Empty briefing generated", rfl⟩

/-!
## Editor: phase-2 failure fallback (C5) and report chunking (C6)
-/

theorem lastStrYield_fail (l : List SweepEvent) (m s : String) :
    lastStrYield (l ++ [SweepEvent.errEv m, SweepEvent.strEv s]) = s := by
  unfold lastStrYield
  rw [List.foldl_append]
  rfl

theorem pyStrip_empty : pyStrip "" = "" := rfl

/-- Counterexample to C5 as stated: when the phase-1 result `R` is
whitespace-only (here three spaces), a phase-2 stream that raises
mid-way makes `edit_report` hit the `if not final_report.strip():
return ""` branch, so `state['report']` is never written and does not
equal `R`. -/
theorem edit_report_whitespace_fallback_lost :
    (" " ++ " " ++ " " : String) ≠ "" ∧
    (edit_report { report := none, status := none, editor_report := none }
        (" " ++ " " ++ " ")
        { chunks := ["ab"], fails := true, errMsg := "boom" }).1.report
      = none ∧
    (edit_report { report := none, status := none, editor_report := none }
        (" " ++ " " ++ " ")
        { chunks := ["ab"], fails := true, errMsg := "boom" }).2 = "" := by
  refine ⟨by decide, ?_, ?_⟩ <;> rfl

/-- C5 (amended).  If the phase-2 cleanup stream raises mid-way after
phase 1 produced a result `R` with at least one non-whitespace
character, then `edit_report` stores exactly `R` in both
`state['report']` and `state['editor']['report']`, returns `R`, and an
`error` progress event was emitted by `content_sweep`; phase-2 failure
never loses such a phase-1 result.  (When `R` is empty or
whitespace-only, `edit_report` instead returns `""` and stores
nothing.) -/
theorem edit_report_phase2_failure_fallback (st : EditorState) (R : String)
    (stream : StreamSpec) (hfail : stream.fails = true)
    (hR : pyStrip R ≠ "") :
    (edit_report st R stream).1.report = some R ∧
    (edit_report st R stream).1.editor_report = some R ∧
    (edit_report st R stream).2 = R ∧
    SweepEvent.errEv stream.errMsg ∈ content_sweep R stream := by
  have hRne : R ≠ "" := by
    intro h
    exact hR (by rw [h]; rfl)
  have hevs : content_sweep R stream
      = (sweepFold stream.chunks "" "").1 ++
        [SweepEvent.errEv stream.errMsg, SweepEvent.strEv R] := by
    unfold content_sweep
    rw [hfail]
    rw [if_pos rfl, if_neg hRne]
  have hlast : lastStrYield (content_sweep R stream) = R := by
    rw [hevs, lastStrYield_fail]
  have hmem : SweepEvent.errEv stream.errMsg ∈ content_sweep R stream := by
    rw [hevs]
    exact List.mem_append_right _ (List.mem_cons_self _ _)
  unfold edit_report
  rw [if_neg hRne]
  dsimp only
  rw [hlast, if_neg hRne, if_neg hR]
  exact ⟨rfl, rfl, rfl, hmem⟩

/-- Witness for C5 (amended) at a concrete input. -/
theorem edit_report_phase2_failure_fallback_witness :
    (({ chunks := ["Cleaned te"], fails := true,
        errMsg := "api error" } : StreamSpec).fails = true) ∧
    pyStrip "Phase one result." ≠ "" ∧
    ((edit_report { report := none, status := none, editor_report := none }
        "Phase one result."
        { chunks := ["Cleaned te"], fails := true,
          errMsg := "api error" }).1.report = some "Phase one result." ∧
      (edit_report { report := none, status := none, editor_report := none }
        "Phase one result."
        { chunks := ["Cleaned te"], fails := true,
          errMsg := "api error" }).1.editor_report
        = some "Phase one result." ∧
      (edit_report { report := none, status := none, editor_report := none }
        "Phase one result."
        { chunks := ["Cleaned te"], fails := true,
          errMsg := "api error" }).2 = "Phase one result." ∧
      SweepEvent.errEv "api error" ∈ content_sweep "Phase one result."
        { chunks := ["Cleaned te"], fails := true, errMsg := "api error" }) := by
  refine ⟨rfl, by decide, ?_⟩
  exact edit_report_phase2_failure_fallback
    { report := none, status := none, editor_report := none }
    "Phase one result."
    { chunks := ["Cleaned te"], fails := true, errMsg := "api error" }
    rfl (by decide)

theorem chunkStrings_append (a b : List SweepEvent) :
    chunkStrings (a ++ b) = chunkStrings a ++ chunkStrings b := by
  unfold chunkStrings
  exact List.filterMap_append a b _

theorem strConcat_append (a b : List String) :
    strConcat (a ++ b) = strConcat a ++ strConcat b := by
  induction a with
  | nil => rw [List.nil_append, strConcat, String.empty_append]
  | cons x t ih =>
      rw [List.cons_append, strConcat, strConcat, ih, String.append_assoc]

theorem sweepFold_chunk_join (chs : List String) :
    ∀ acc buf : String,
      strConcat (chunkStrings (sweepFold chs acc buf).1)
        ++ (sweepFold chs acc buf).2.2 = buf ++ strConcat chs := by
  induction chs with
  | nil =>
      intro acc buf
      simp only [sweepFold, chunkStrings, List.filterMap_nil, strConcat]
      rw [String.empty_append, String.append_empty]
  | cons c rest ih =>
      intro acc buf
      simp only [sweepFold]
      by_cases hc : hasSentenceTerminal (buf ++ c) = true ∧
          10 < (buf ++ c).length
      · rw [if_pos hc]
        simp only [chunkStrings, List.filterMap_cons]
        have := ih (acc ++ c) ""
        unfold chunkStrings at this
        rw [strConcat, String.append_assoc, this, String.empty_append,
          strConcat]
        exact String.append_assoc _ _ _
      · rw [if_neg hc]
        rw [ih (acc ++ c) (buf ++ c), strConcat, String.append_assoc]

theorem sweepFold_chunk_good (chs : List String) :
    ∀ (acc buf : String) (s : String),
      s ∈ chunkStrings (sweepFold chs acc buf).1 →
      hasSentenceTerminal s = true ∧ 10 < s.length := by
  induction chs with
  | nil =>
      intro acc buf s hs
      simp [sweepFold, chunkStrings] at hs
  | cons c rest ih =>
      intro acc buf s hs
      simp only [sweepFold] at hs
      by_cases hc : hasSentenceTerminal (buf ++ c) = true ∧
          10 < (buf ++ c).length
      · rw [if_pos hc] at hs
        simp only [chunkStrings, List.filterMap_cons] at hs
        rcases List.mem_cons.mp hs with rfl | hmem
        · exact hc
        · exact ih (acc ++ c) "" s hmem
      · rw [if_neg hc] at hs
        exact ih (acc ++ c) (buf ++ c) s hs

/-- Counterexample to C6 as stated: for the streamed completion
producing `"Hello. World! Done"` (streamed as the sentence tokens
`"Hello."`, `" World!"`, `" Done"`), the chunk boundaries are NOT after
`"Hello."` and after `"World!"`: `"Hello."` alone has length 6, which
does not exceed the length-10 minimum, so the first `report_chunk` is
the combined `"Hello. World!"`, followed by the flushed remainder
`" Done"`; no emitted chunk equals `"Hello."`. -/
theorem content_sweep_hello_chunks_counterexample :
    chunkStrings (content_sweep "Hello. World! Done"
        { chunks := ["Hello.", " World!", " Done"], fails := false,
          errMsg := "" })
      = ["Hello. World!", " Done"] ∧
    ¬ ("Hello." ∈ chunkStrings (content_sweep "Hello. World! Done"
        { chunks := ["Hello.", " World!", " Done"], fails := false,
          errMsg := "" })) := by
  refine ⟨?_, ?_⟩ <;> decide

/-- C6 (amended).  During `content_sweep` streaming (no failure), a
`report_chunk` is emitted exactly when, after appending a streamed
delta, the buffer contains a sentence-terminal character and its
length exceeds 10; the buffer is emitted as-is and reset, and any
non-empty trailing buffer is flushed as a final chunk.  Consequently
(1) the emitted chunks concatenate to exactly the streamed text, and
(2) every chunk except possibly the final flush contains a
sentence-terminal character and has length > 10.  (3) In particular,
for the stream `["Hello.", " World!", " Done"]` the chunks are
`"Hello. World!"` and `" Done"` — a single mid-stream boundary after
`"World!"`, and none after `"Hello."`, whose length 6 does not exceed
the minimum. -/
theorem content_sweep_chunking (chs : List String) (content m s : String)
    (hs : s ∈ (chunkStrings (content_sweep content
      { chunks := chs, fails := false, errMsg := m })).dropLast) :
    strConcat (chunkStrings (content_sweep content
        { chunks := chs, fails := false, errMsg := m })) = strConcat chs ∧
    (hasSentenceTerminal s = true ∧ 10 < s.length) ∧
    chunkStrings (content_sweep "Hello. World! Done"
        { chunks := ["Hello.", " World!", " Done"], fails := false,
          errMsg := "" })
      = ["Hello. World!", " Done"] := by
  have hevs : content_sweep content
      { chunks := chs, fails := false, errMsg := m }
      = (sweepFold chs "" "").1 ++
        ((if (sweepFold chs "" "").2.2 = "" then []
          else [SweepEvent.chunkEv (sweepFold chs "" "").2.2]) ++
          [SweepEvent.strEv (pyStrip (sweepFold chs "" "").2.1)]) := by
    simp only [content_sweep, Bool.false_eq_true, if_false,
      List.append_assoc]
  have hjoin := sweepFold_chunk_join chs "" ""
  rw [String.empty_append] at hjoin
  have hstrnil : chunkStrings [SweepEvent.strEv
      (pyStrip (sweepFold chs "" "").2.1)] = [] := by
    simp [chunkStrings]
  refine ⟨?_, ?_, by decide⟩
  · rw [hevs, chunkStrings_append, chunkStrings_append, hstrnil,
      List.append_nil]
    by_cases hb : (sweepFold chs "" "").2.2 = ""
    · rw [if_pos hb]
      rw [hb, String.append_empty] at hjoin
      rw [show chunkStrings ([] : List SweepEvent) = [] from rfl,
        List.append_nil, hjoin]
    · rw [if_neg hb]
      rw [show chunkStrings [SweepEvent.chunkEv (sweepFold chs "" "").2.2]
          = [(sweepFold chs "" "").2.2] from rfl]
      rw [strConcat_append, strConcat, strConcat, String.append_empty,
        hjoin]
  · rw [hevs, chunkStrings_append, chunkStrings_append, hstrnil,
      List.append_nil] at hs
    by_cases hb : (sweepFold chs "" "").2.2 = ""
    · rw [if_pos hb] at hs
      rw [show chunkStrings ([] : List SweepEvent) = [] from rfl,
        List.append_nil] at hs
      exact sweepFold_chunk_good chs "" "" s
        ((List.dropLast_sublist _).mem hs)
    · rw [if_neg hb] at hs
      rw [show chunkStrings [SweepEvent.chunkEv (sweepFold chs "" "").2.2]
          = [(sweepFold chs "" "").2.2] from rfl,
        List.dropLast_concat] at hs
      exact sweepFold_chunk_good chs "" "" s hs

/-- Witness for C6 (amended) at a concrete input. -/
theorem content_sweep_chunking_witness :
    ("Hello. World!" ∈ (chunkStrings (content_sweep "Hello. World! Done"
      { chunks := ["Hello.", " World!", " Done"], fails := false,
        errMsg := "" })).dropLast) ∧
    (strConcat (chunkStrings (content_sweep "Hello. World! Done"
        { chunks := ["Hello.", " World!", " Done"], fails := false,
          errMsg := "" }))
      = strConcat ["Hello.", " World!", " Done"] ∧
    (hasSentenceTerminal "Hello. World!" = true ∧
      10 < ("Hello. World!" : String).length) ∧
    chunkStrings (content_sweep "Hello. World! Done"
        { chunks := ["Hello.", " World!", " Done"], fails := false,
          errMsg := "" })
      = ["Hello. World!", " Done"]) := by
  refine ⟨by decide, ?_⟩
  exact content_sweep_chunking ["Hello.", " World!", " Done"]
    "Hello. World! Done" "" "Hello. World!" (by decide)

/-!
## Curator URL normalization: the `https` scheme default is dead code
(C3) and normalization is not idempotent (C9)
-/

/-- C3.  The normalized URL that `curate_data` uses as a document's
identity does have its query string and fragment stripped, but its
scheme is NOT defaulted to `https` when the raw URL has none:
`clean_url` is computed from `parsed`, which was parsed from the
original `url` BEFORE the `url = urljoin('https://', url)`
reassignment, whose result is never used.  On the raw URL
`"example.com/page?q=1#frag"` the code produces `"example.com/page"`
(no scheme), not `"https://example.com/page"` as the claim states. -/
theorem curator_normalize_no_scheme_default (vh : List Char → Bool) :
    normalizeUrl vh "example.com/page?q=1#frag" = some "example.com/page" ∧
    ("example.com/page" : String) ≠ "https://example.com/page" :=
  ⟨rfl, by decide⟩

/-- Counterexample to C9 as stated: normalization is not idempotent.
For the raw URL `"/////x"`, the normalized URL is `"///x"`; but
normalizing the already-normalized `"///x"` yields `"/x"`, not
`"///x"` (under the `urlunsplit` of CPython ≥ 3.11, a `//`-headed path
behind an empty netloc with no `uses_netloc` scheme loses a `//` on
each round trip). -/
theorem normalize_not_idempotent_slashes :
    normalizeUrl (fun _ => true) "/////x" = some "///x" ∧
    normalizeUrl (fun _ => true) "///x" = some "/x" ∧
    some ("/x" : String) ≠ some "///x" := by
  refine ⟨rfl, rfl, by decide⟩

/-!
## Character-level lemmas for the normalization round trip
-/

theorem charOfNat_toNat {n : Nat} (h : n.isValidChar) :
    (Char.ofNat n).toNat = n := by
  simp [Char.ofNat, h, Char.ofNatAux, Char.toNat, UInt32.toNat]

theorem lowerChar_toNat (a : Char) (h : asciiUpper a = true) :
    (lowerChar a).toNat = a.toNat + 32 := by
  unfold lowerChar
  rw [if_pos h]
  apply charOfNat_toNat
  unfold asciiUpper at h
  rw [Bool.and_eq_true, decide_eq_true_eq, decide_eq_true_eq] at h
  exact Or.inl (by omega)

theorem lowerChar_eq_self (a : Char) (h : asciiUpper a = false) :
    lowerChar a = a := by
  unfold lowerChar
  rw [h]
  rfl

theorem asciiUpper_lowerChar (a : Char) :
    asciiUpper (lowerChar a) = false := by
  by_cases h : asciiUpper a = true
  · have ht := lowerChar_toNat a h
    unfold asciiUpper at h ⊢
    rw [Bool.and_eq_true, decide_eq_true_eq, decide_eq_true_eq] at h
    rw [ht]
    simp only [Bool.and_eq_false_iff, decide_eq_false_iff_not]
    omega
  · rw [lowerChar_eq_self a (by simpa using h)]
    simpa using h

theorem lowerChar_idem (a : Char) :
    lowerChar (lowerChar a) = lowerChar a :=
  lowerChar_eq_self _ (asciiUpper_lowerChar a)

theorem asciiAlpha_lowerChar (a : Char) (h : asciiAlpha a = true) :
    asciiAlpha (lowerChar a) = true := by
  by_cases hu : asciiUpper a = true
  · have ht := lowerChar_toNat a hu
    unfold asciiUpper at hu
    rw [Bool.and_eq_true, decide_eq_true_eq, decide_eq_true_eq] at hu
    unfold asciiAlpha asciiLower
    rw [ht]
    simp only [Bool.or_eq_true, Bool.and_eq_true, decide_eq_true_eq]
    right
    omega
  · rw [lowerChar_eq_self a (by simpa using hu)]
    exact h

theorem schemeChar_lowerChar (a : Char) (h : schemeChar a = true) :
    schemeChar (lowerChar a) = true := by
  by_cases hu : asciiUpper a = true
  · have : asciiAlpha (lowerChar a) = true :=
      asciiAlpha_lowerChar a (by unfold asciiAlpha; rw [hu]; rfl)
    unfold schemeChar
    rw [this]
    rfl
  · rw [lowerChar_eq_self a (by simpa using hu)]
    exact h

theorem schemeChar_colon : schemeChar ':' = false := by decide

theorem schemeChar_slash : schemeChar '/' = false := by decide

theorem schemeChar_semicolon : schemeChar ';' = false := by decide

theorem schemeChar_toNat_lb (a : Char) (h : schemeChar a = true) :
    43 ≤ a.toNat := by
  unfold schemeChar asciiAlpha asciiUpper asciiLower asciiDigit at h
  simp only [Bool.or_eq_true, Bool.and_eq_true, decide_eq_true_eq] at h
  rcases h with ((((h1 | h1) | h1) | h1) | h1) | h1
  · omega
  · omega
  · omega
  · subst h1; decide
  · subst h1; decide
  · subst h1; decide

theorem schemeChar_not_unsafe (a : Char) (h : schemeChar a = true) :
    unsafeUrlChar a = false := by
  cases hu : unsafeUrlChar a
  · rfl
  · exfalso
    have hl := schemeChar_toNat_lb a h
    unfold unsafeUrlChar at hu
    simp only [Bool.or_eq_true, decide_eq_true_eq] at hu
    rcases hu with (h1 | h1) | h1 <;> (subst h1; revert hl; decide)

theorem schemeChar_not_c0 (a : Char) (h : schemeChar a = true) :
    c0ControlOrSpace a = false := by
  have hl := schemeChar_toNat_lb a h
  unfold c0ControlOrSpace
  simp only [decide_eq_false_iff_not]
  omega

theorem asciiAlpha_not_c0 (a : Char) (h : asciiAlpha a = true) :
    c0ControlOrSpace a = false := by
  unfold asciiAlpha asciiUpper asciiLower at h
  simp only [Bool.or_eq_true, Bool.and_eq_true, decide_eq_true_eq] at h
  unfold c0ControlOrSpace
  simp only [decide_eq_false_iff_not]
  rcases h with h | h <;> omega

theorem slash_not_c0 : c0ControlOrSpace '/' = false := by decide

theorem semicolon_not_c0 : c0ControlOrSpace ';' = false := by decide

/-!
## takeWhile/dropWhile splitting lemmas
-/

theorem takeWhile_append_of {α : Type} (p : α → Bool) (l : List α) (c : α)
    (t : List α) (hl : ∀ a ∈ l, p a = true) (hc : p c = false) :
    (l ++ c :: t).takeWhile p = l := by
  induction l with
  | nil => simp [List.takeWhile_cons, hc]
  | cons x xs ih =>
      rw [List.cons_append, List.takeWhile_cons,
        hl x (List.mem_cons_self x xs)]
      rw [ih (fun a ha => hl a (List.mem_cons_of_mem x ha))]
      rfl

theorem dropWhile_append_of {α : Type} (p : α → Bool) (l : List α) (c : α)
    (t : List α) (hl : ∀ a ∈ l, p a = true) (hc : p c = false) :
    (l ++ c :: t).dropWhile p = c :: t := by
  induction l with
  | nil => simp [List.dropWhile_cons, hc]
  | cons x xs ih =>
      rw [List.cons_append, List.dropWhile_cons,
        hl x (List.mem_cons_self x xs)]
      exact ih (fun a ha => hl a (List.mem_cons_of_mem x ha))

theorem dropWhile_head_false {α : Type} (p : α → Bool) (l : List α) (d : α)
    (rs : List α) (h : l.dropWhile p = d :: rs) : p d = false := by
  induction l with
  | nil => exact absurd h (by simp)
  | cons x xs ih =>
      rw [List.dropWhile_cons] at h
      by_cases hx : p x = true
      · rw [if_pos hx] at h
        exact ih h
      · rw [if_neg hx] at h
        rcases h with ⟨rfl, _⟩
        simpa using hx

theorem mem_dropWhile_ne (c : Char) (l : List Char) (h : c ∈ l) :
    ∃ t, l.dropWhile (fun a => a != c) = c :: t := by
  induction l with
  | nil => exact absurd h (by simp)
  | cons x xs ih =>
      rw [List.dropWhile_cons]
      by_cases hx : x = c
      · subst hx
        rw [if_neg (by simp)]
        exact ⟨xs, rfl⟩
      · rw [if_pos (by simp [hx])]
        exact ih (List.mem_cons.mp h |>.resolve_left (fun hh => hx hh.symm))

theorem takeUntil_dropPast_decomp (c : Char) (l : List Char) (h : c ∈ l) :
    l = takeUntil c l ++ c :: dropPast c l := by
  rcases mem_dropWhile_ne c l h with ⟨t, ht⟩
  unfold takeUntil dropPast
  rw [ht]
  conv_lhs => rw [← List.takeWhile_append_dropWhile (fun a => a != c) l]
  rw [ht]
  rfl

theorem takeUntil_of_not_mem (c : Char) (l : List Char) (h : c ∉ l) :
    takeUntil c l = l := by
  unfold takeUntil
  rw [List.takeWhile_eq_self_iff.mpr]
  intro x hx
  simp only [bne_iff_ne, ne_eq]
  exact fun he => h (he ▸ hx)

theorem dropPast_of_not_mem (c : Char) (l : List Char) (h : c ∉ l) :
    dropPast c l = [] := by
  unfold dropPast
  rw [List.dropWhile_eq_nil_iff.mpr]
  · rfl
  · intro x hx
    simp only [bne_iff_ne, ne_eq]
    exact fun he => h (he ▸ hx)

theorem takeWhile_head_eq {α : Type} (p : α → Bool) (l : List α) (y : α)
    (ys : List α) (h : l.takeWhile p = y :: ys) : l.head? = some y := by
  cases l with
  | nil => exact absurd h (by simp)
  | cons x xs =>
      rw [List.takeWhile_cons] at h
      by_cases hx : p x = true
      · rw [if_pos hx] at h
        rcases h with ⟨rfl, _⟩
        rfl
      · rw [if_neg hx] at h
        exact absurd h (by simp)

/-!
## splitScheme lemmas
-/

theorem splitScheme_accept (p : Char) (ps r : List Char)
    (hall : ∀ a ∈ p :: ps, schemeChar a = true)
    (hp : asciiAlpha p = true)
    (hfix : (p :: ps).map lowerChar = p :: ps) :
    splitScheme ((p :: ps) ++ ':' :: r) = (p :: ps, r) := by
  unfold splitScheme
  rw [takeWhile_append_of _ (p :: ps) ':' r hall schemeChar_colon,
      dropWhile_append_of _ (p :: ps) ':' r hall schemeChar_colon]
  dsimp only
  rw [if_pos ⟨rfl, hp⟩, hfix]

theorem splitScheme_reject_nil : splitScheme [] = ([], []) := rfl

theorem splitScheme_reject_head (x : Char) (xs : List Char)
    (hx : schemeChar x = false) :
    splitScheme (x :: xs) = ([], x :: xs) := by
  unfold splitScheme
  rw [List.takeWhile_cons, if_neg (by simp [hx])]

theorem splitScheme_fst_nil (u : List Char)
    (h : (splitScheme u).1 = []) : splitScheme u = ([], u) := by
  unfold splitScheme at h ⊢
  rcases h1 : u.takeWhile schemeChar with _ | ⟨p, ps⟩
  · rcases h2 : u.dropWhile schemeChar with _ | ⟨x, xs⟩ <;> rfl
  · rcases h2 : u.dropWhile schemeChar with _ | ⟨x, xs⟩
    · rfl
    · rw [h1, h2] at h
      dsimp only at h ⊢
      by_cases hc : x = ':' ∧ asciiAlpha p = true
      · rw [if_pos hc] at h
        exact absurd h (by simp)
      · rw [if_neg hc]

theorem splitScheme_prefix_reject (u w t : List Char)
    (hu : splitScheme u = ([], u)) (hw : u = w ++ t) :
    splitScheme w = ([], w) := by
  rcases h1 : w.takeWhile schemeChar with _ | ⟨p, ps⟩
  · unfold splitScheme
    rw [h1]
  · rcases h2 : w.dropWhile schemeChar with _ | ⟨x, xs⟩
    · unfold splitScheme
      rw [h1, h2]
    · by_cases hc : x = ':' ∧ asciiAlpha p = true
      · exfalso
        rcases hc with ⟨rfl, hp⟩
        have hdec := List.takeWhile_append_dropWhile schemeChar w
        rw [h1, h2] at hdec
        have hall : ∀ a ∈ p :: ps, schemeChar a = true := by
          intro a ha
          exact List.mem_takeWhile_imp (h1 ▸ ha)
        have hu2 : u = (p :: ps) ++ ':' :: (xs ++ t) := by
          rw [hw, ← hdec, List.append_assoc]
          rfl
        have htw : u.takeWhile schemeChar = p :: ps := by
          rw [hu2]
          exact takeWhile_append_of _ _ _ _ hall schemeChar_colon
        have hdw : u.dropWhile schemeChar = ':' :: (xs ++ t) := by
          rw [hu2]
          exact dropWhile_append_of _ _ _ _ hall schemeChar_colon
        have hsp : splitScheme u = ((p :: ps).map lowerChar, xs ++ t) := by
          unfold splitScheme
          rw [htw, hdw]
          dsimp only
          rw [if_pos ⟨rfl, hp⟩]
        rw [hu] at hsp
        have hnil : (p :: ps).map lowerChar = [] := congrArg Prod.fst hsp.symm
        exact absurd hnil (by simp)
      · unfold splitScheme
        rw [h1, h2]
        dsimp only
        rw [if_neg hc]

/-!
## splitNetloc lemmas
-/

theorem splitNetloc_not_slashes (vh : List Char → Bool) (w : List Char)
    (h : w.take 2 ≠ ['/', '/']) : splitNetloc vh w = some ([], w) := by
  rcases w with _ | ⟨a, _ | ⟨b, r⟩⟩
  · rfl
  · rfl
  · unfold splitNetloc
    dsimp only
    rw [if_neg]
    intro hab
    rcases hab with ⟨rfl, rfl⟩
    exact h rfl

theorem splitNetloc_slashes (vh : List Char → Bool) (n rest : List Char)
    (hn : ∀ a ∈ n, netlocDelim a = false)
    (hrest : rest = [] ∨ ∃ d rs, rest = d :: rs ∧ netlocDelim d = true)
    (hbr : ('[' ∈ n) ↔ (']' ∈ n))
    (hvh : '[' ∈ n → vh (takeUntil ']' (dropPast '[' n)) = true) :
    splitNetloc vh ('/' :: '/' :: (n ++ rest)) = some (n, rest) := by
  have htw : (n ++ rest).takeWhile (fun c => !netlocDelim c) = n := by
    rcases hrest with rfl | ⟨d, rs, rfl, hd⟩
    · rw [List.append_nil, List.takeWhile_eq_self_iff.mpr]
      intro a ha
      rw [hn a ha]
      rfl
    · exact takeWhile_append_of _ n d rs
        (fun a ha => by rw [hn a ha]; rfl) (by rw [hd]; rfl)
  have hdw : (n ++ rest).dropWhile (fun c => !netlocDelim c) = rest := by
    rcases hrest with rfl | ⟨d, rs, rfl, hd⟩
    · rw [List.append_nil, List.dropWhile_eq_nil_iff.mpr]
      intro a ha
      rw [hn a ha]
      rfl
    · exact dropWhile_append_of _ n d rs
        (fun a ha => by rw [hn a ha]; rfl) (by rw [hd]; rfl)
  unfold splitNetloc
  dsimp only
  rw [if_pos ⟨rfl, rfl⟩]
  rw [htw, hdw, if_pos hbr]
  by_cases hb : '[' ∈ n
  · rw [if_pos hb, if_pos (hvh hb)]
  · rw [if_neg hb]

theorem splitNetloc_inv (vh : List Char → Bool) (w n r2 : List Char)
    (h : splitNetloc vh w = some (n, r2)) :
    (∀ a ∈ n, netlocDelim a = false) ∧
    (('[' ∈ n) ↔ (']' ∈ n)) ∧
    ('[' ∈ n → vh (takeUntil ']' (dropPast '[' n)) = true) ∧
    ((n = [] ∧ r2 = w ∧ w.take 2 ≠ ['/', '/']) ∨
     (w = '/' :: '/' :: (n ++ r2) ∧
       (r2 = [] ∨ ∃ d rs, r2 = d :: rs ∧ netlocDelim d = true))) := by
  rcases w with _ | ⟨a, _ | ⟨b, r⟩⟩
  · rcases Option.some_inj.mp h with h'
    rcases Prod.mk.injEq .. ▸ h' with ⟨rfl, rfl⟩
    exact ⟨by simp, by simp, by simp, Or.inl ⟨rfl, rfl, by simp⟩⟩
  · rcases Option.some_inj.mp h with h'
    rcases Prod.mk.injEq .. ▸ h' with ⟨rfl, rfl⟩
    exact ⟨by simp, by simp, by simp, Or.inl ⟨rfl, rfl, by simp⟩⟩
  · unfold splitNetloc at h
    dsimp only at h
    by_cases hab : a = '/' ∧ b = '/'
    · rw [if_pos hab] at h
      rcases hab with ⟨rfl, rfl⟩
      by_cases hbr : ('[' ∈ r.takeWhile (fun c => !netlocDelim c)) ↔
          (']' ∈ r.takeWhile (fun c => !netlocDelim c))
      · rw [if_pos hbr] at h
        have hsome : some (r.takeWhile (fun c => !netlocDelim c),
            r.dropWhile (fun c => !netlocDelim c)) = some (n, r2) ∧
            ('[' ∈ r.takeWhile (fun c => !netlocDelim c) →
              vh (takeUntil ']' (dropPast '['
                (r.takeWhile (fun c => !netlocDelim c)))) = true) := by
          by_cases hb : '[' ∈ r.takeWhile (fun c => !netlocDelim c)
          · rw [if_pos hb] at h
            by_cases hv : vh (takeUntil ']' (dropPast '['
                (r.takeWhile (fun c => !netlocDelim c)))) = true
            · rw [if_pos hv] at h
              exact ⟨h, fun _ => hv⟩
            · rw [if_neg hv] at h
              exact absurd h (by simp)
          · rw [if_neg hb] at h
            exact ⟨h, fun hc => absurd hc hb⟩
        rcases hsome with ⟨heq, hvh⟩
        have heq2 := Option.some_inj.mp heq
        have hn : r.takeWhile (fun c => !netlocDelim c) = n :=
          congrArg Prod.fst heq2
        have hr2 : r.dropWhile (fun c => !netlocDelim c) = r2 :=
          congrArg Prod.snd heq2
        refine ⟨?_, ?_, ?_, Or.inr ⟨?_, ?_⟩⟩
        · intro x hx
          have := List.mem_takeWhile_imp (hn ▸ hx)
          simpa using this
        · rw [← hn]; exact hbr
        · rw [← hn]; exact hvh
        · rw [← hn, ← hr2, List.takeWhile_append_dropWhile]
        · rcases hd : r.dropWhile (fun c => !netlocDelim c) with _ | ⟨d, rs⟩
          · left; rw [← hr2, hd]
          · right
            refine ⟨d, rs, by rw [← hr2, hd], ?_⟩
            have := dropWhile_head_false _ r d rs hd
            simpa using this
      · rw [if_neg hbr] at h
        exact absurd h (by simp)
    · rw [if_neg hab] at h
      rcases Option.some_inj.mp h with h'
      rcases Prod.mk.injEq .. ▸ h' with ⟨rfl, rfl⟩
      refine ⟨by simp, by simp, by simp, Or.inl ⟨rfl, rfl, ?_⟩⟩
      intro hc
      have h2 : List.take 2 (a :: b :: r) = [a, b] := rfl
      rw [h2] at hc
      injection hc with ha hrest
      injection hrest with hb _
      exact hab ⟨ha, hb⟩

/-!
## splitAtLastSlash and splitParams lemmas
-/

theorem splitAtLastSlash_none (p : List Char) :
    splitAtLastSlash p = none ↔ '/' ∉ p := by
  induction p with
  | nil => simp [splitAtLastSlash]
  | cons c t ih =>
      unfold splitAtLastSlash
      rcases hst : splitAtLastSlash t with _ | ⟨a, b⟩
      · by_cases hc : c = '/'
        · rw [if_pos hc]
          simp [hc]
        · rw [if_neg hc]
          simp only [List.mem_cons, not_or]
          constructor
          · intro _
            exact ⟨fun he => hc he.symm, (ih.mp hst)⟩
          · intro _
            trivial
      · simp only [iff_false, List.mem_cons, not_or]
        constructor
        · intro hfalse
          exact absurd hfalse (by simp)
        · intro ⟨_, hnt⟩
          have := ih.mpr hnt
          rw [hst] at this
          exact absurd this (by simp)

theorem splitAtLastSlash_some (p a b : List Char)
    (h : splitAtLastSlash p = some (a, b)) :
    p = a ++ '/' :: b ∧ '/' ∉ b := by
  induction p generalizing a b with
  | nil => exact absurd h (by simp [splitAtLastSlash])
  | cons c t ih =>
      unfold splitAtLastSlash at h
      rcases hst : splitAtLastSlash t with _ | ⟨a', b'⟩
      · rw [hst] at h
        by_cases hc : c = '/'
        · rw [if_pos hc] at h
          rcases Option.some_inj.mp h with h'
          have ha : ([] : List Char) = a := congrArg Prod.fst h'
          have hb : t = b := congrArg Prod.snd h'
          subst hc
          rw [← ha, ← hb]
          exact ⟨rfl, (splitAtLastSlash_none t).mp hst⟩
        · rw [if_neg hc] at h
          exact absurd h (by simp)
      · rw [hst] at h
        rcases Option.some_inj.mp h with h'
        have ha : c :: a' = a := congrArg Prod.fst h'
        have hb : b' = b := congrArg Prod.snd h'
        rcases ih a' b' hst with ⟨ht, hnb⟩
        subst ha
        subst hb
        exact ⟨by rw [ht]; rfl, hnb⟩

theorem splitAtLastSlash_append (a b : List Char) (hb : '/' ∉ b) :
    splitAtLastSlash (a ++ '/' :: b) = some (a, b) := by
  induction a with
  | nil =>
      rw [List.nil_append]
      unfold splitAtLastSlash
      rw [(splitAtLastSlash_none b).mpr hb, if_pos rfl]
  | cons c t ih =>
      rw [List.cons_append]
      unfold splitAtLastSlash
      rw [ih]

theorem splitParams_shape (p pa pr : List Char) (hsemi : ';' ∈ p)
    (h : splitParams p = (pa, pr)) :
    (∃ a c, p = a ++ '/' :: (c ++ ';' :: pr) ∧ pa = a ++ '/' :: c ∧
      ';' ∉ c ∧ '/' ∉ c ∧ '/' ∉ pr) ∨
    (∃ a b, p = a ++ '/' :: b ∧ ';' ∉ b ∧ '/' ∉ b ∧ pa = p ∧ pr = []) ∨
    ('/' ∉ p ∧ p = pa ++ ';' :: pr ∧ ';' ∉ pa) := by
  unfold splitParams at h
  rcases hsl : splitAtLastSlash p with _ | ⟨a, b⟩
  · rw [hsl] at h
    right; right
    have hnosl := (splitAtLastSlash_none p).mp hsl
    have hdecomp := takeUntil_dropPast_decomp ';' p hsemi
    have hpa : pa = takeUntil ';' p := (congrArg Prod.fst h).symm
    have hpr : pr = dropPast ';' p := (congrArg Prod.snd h).symm
    refine ⟨hnosl, ?_, ?_⟩
    · rw [hpa, hpr]; exact hdecomp
    · rw [hpa]
      intro hmem
      have := List.mem_takeWhile_imp hmem
      simp at this
  · rw [hsl] at h
    dsimp only at h
    rcases splitAtLastSlash_some p a b hsl with ⟨hp, hnb⟩
    by_cases hsb : ';' ∈ b
    · rw [if_pos hsb] at h
      left
      have hdecomp := takeUntil_dropPast_decomp ';' b hsb
      have hpa : pa = a ++ '/' :: takeUntil ';' b := (congrArg Prod.fst h).symm
      have hpr : pr = dropPast ';' b := (congrArg Prod.snd h).symm
      refine ⟨a, takeUntil ';' b, ?_, ?_, ?_, ?_, ?_⟩
      · rw [hp, hpr]
        rw [← hdecomp]
      · rw [hpa]
      · intro hmem
        have := List.mem_takeWhile_imp hmem
        simp at this
      · intro hmem
        exact hnb ((List.takeWhile_sublist _).mem hmem)
      · intro hmem
        rw [hpr] at hmem
        unfold dropPast at hmem
        exact hnb ((List.dropWhile_sublist _).mem (List.mem_of_mem_tail hmem))
    · rw [if_neg hsb] at h
      right; left
      have hpa : pa = p := (congrArg Prod.fst h).symm
      have hpr : pr = [] := (congrArg Prod.snd h).symm
      exact ⟨a, b, hp, hsb, hnb, hpa, hpr⟩

theorem splitParams_rebuild (p pa pr : List Char) (hsemi : ';' ∈ p)
    (h : splitParams p = (pa, pr)) :
    pa ++ ';' :: pr = p ∨ (pr = [] ∧ pa = p) := by
  rcases splitParams_shape p pa pr hsemi h with
    ⟨a, c, hp, hpa, _, _, _⟩ | ⟨_, _, _, _, _, hpa, hpr⟩ | ⟨_, hp, _⟩
  · left
    rw [hpa, hp, List.append_assoc]
    rfl
  · right
    exact ⟨hpr, hpa⟩
  · left
    exact hp.symm

theorem splitParams_roundtrip (p pa pr : List Char) (hsemi : ';' ∈ p)
    (h : splitParams p = (pa, pr))
    (hsemi2 : ';' ∈ pa ++ (if pr = [] then [] else ';' :: pr)) :
    splitParams (pa ++ (if pr = [] then [] else ';' :: pr)) = (pa, pr) := by
  rcases splitParams_shape p pa pr hsemi h with
    ⟨a, c, hp, hpa, hsc, hslc, hslpr⟩ |
    ⟨a, b, hp, hsb, hslb, hpa, hpr⟩ | ⟨hns, hp, hspa⟩
  · by_cases hpr0 : pr = []
    · subst hpr0
      rw [if_pos rfl, List.append_nil]
      rw [hpa]
      unfold splitParams
      rw [splitAtLastSlash_append a c hslc]
      dsimp only
      rw [if_neg hsc]
    · rw [if_neg hpr0]
      have he : pa ++ ';' :: pr = p := by
        rw [hpa, hp, List.append_assoc]
        rfl
      rw [he]
      exact h
  · subst hpr
    subst hpa
    rw [if_pos rfl, List.append_nil]
    exact h
  · by_cases hpr0 : pr = []
    · subst hpr0
      rw [if_pos rfl, List.append_nil] at hsemi2
      exact absurd hsemi2 hspa
    · rw [if_neg hpr0]
      rw [hp.symm]
      exact h

theorem splitParams_roundtrip_slash (p pa pr : List Char) (hsemi : ';' ∈ p)
    (h : splitParams p = (pa, pr))
    (hsemi2 : ';' ∈ pa ++ (if pr = [] then [] else ';' :: pr)) :
    splitParams ('/' :: (pa ++ (if pr = [] then [] else ';' :: pr))) =
      ('/' :: pa, pr) := by
  rcases splitParams_shape p pa pr hsemi h with
    ⟨a, c, hp, hpa, hsc, hslc, hslpr⟩ |
    ⟨a, b, hp, hsb, hslb, hpa, hpr⟩ | ⟨hns, hp, hspa⟩
  · by_cases hpr0 : pr = []
    · subst hpr0
      rw [if_pos rfl, List.append_nil]
      rw [hpa]
      rw [show ('/' :: (a ++ '/' :: c) : List Char) = ('/' :: a) ++ '/' :: c
        from rfl]
      unfold splitParams
      rw [splitAtLastSlash_append ('/' :: a) c hslc]
      dsimp only
      rw [if_neg hsc]
    · rw [if_neg hpr0]
      have hns2 : '/' ∉ c ++ ';' :: pr := by
        intro hx
        rcases List.mem_append.mp hx with h1 | h1
        · exact hslc h1
        · rcases List.mem_cons.mp h1 with h2 | h2
          · exact absurd h2 (by decide)
          · exact hslpr h2
      have he : ('/' :: (pa ++ ';' :: pr) : List Char) =
          ('/' :: a) ++ '/' :: (c ++ ';' :: pr) := by
        rw [hpa, List.append_assoc]
        rfl
      rw [he]
      unfold splitParams
      rw [splitAtLastSlash_append ('/' :: a) _ hns2]
      dsimp only
      rw [if_pos (by simp)]
      have htw : (c ++ ';' :: pr).takeWhile (fun x => x != ';') = c :=
        takeWhile_append_of _ c ';' pr
          (fun x hx => by
            simp only [bne_iff_ne, ne_eq, decide_eq_true_eq]
            intro hx2
            exact hsc (hx2 ▸ hx))
          (by simp)
      have hdw : (c ++ ';' :: pr).dropWhile (fun x => x != ';') = ';' :: pr :=
        dropWhile_append_of _ c ';' pr
          (fun x hx => by
            simp only [bne_iff_ne, ne_eq, decide_eq_true_eq]
            intro hx2
            exact hsc (hx2 ▸ hx))
          (by simp)
      rw [htw, hdw]
      rw [hpa]
      rfl
  · subst hpr
    subst hpa
    rw [if_pos rfl, List.append_nil]
    rw [hp]
    rw [show ('/' :: (a ++ '/' :: b) : List Char) = ('/' :: a) ++ '/' :: b
      from rfl]
    unfold splitParams
    rw [splitAtLastSlash_append ('/' :: a) b hslb]
    dsimp only
    rw [if_neg hsb]
  · by_cases hpr0 : pr = []
    · subst hpr0
      rw [if_pos rfl, List.append_nil] at hsemi2
      exact absurd hsemi2 hspa
    · rw [if_neg hpr0]
      have hns2 : '/' ∉ pa ++ ';' :: pr := by
        rw [hp] at hns
        exact hns
      have hsl2 : splitAtLastSlash ('/' :: (pa ++ ';' :: pr)) =
          some ([], pa ++ ';' :: pr) :=
        splitAtLastSlash_append [] _ hns2
      unfold splitParams
      rw [hsl2]
      dsimp only
      rw [if_pos (by simp)]
      have htw : (pa ++ ';' :: pr).takeWhile (fun x => x != ';') = pa :=
        takeWhile_append_of _ pa ';' pr
          (fun x hx => by
            simp only [bne_iff_ne, ne_eq, decide_eq_true_eq]
            intro hx2
            exact hspa (hx2 ▸ hx))
          (by simp)
      have hdw : (pa ++ ';' :: pr).dropWhile (fun x => x != ';') = ';' :: pr :=
        dropWhile_append_of _ pa ';' pr
          (fun x hx => by
            simp only [bne_iff_ne, ne_eq, decide_eq_true_eq]
            intro hx2
            exact hspa (hx2 ▸ hx))
          (by simp)
      rw [htw, hdw]
      rfl

theorem not_mem_takeUntil (c : Char) (l : List Char) : c ∉ takeUntil c l := by
  intro h
  have := List.mem_takeWhile_imp h
  simp at this

theorem params_step (sch pa pr : List Char) (hok : paramsOK sch pa pr) :
    (if sch ∈ usesParams ∧ ';' ∈ pa ++ (if pr = [] then [] else ';' :: pr)
     then splitParams (pa ++ (if pr = [] then [] else ';' :: pr))
     else (pa ++ (if pr = [] then [] else ';' :: pr), [])) = (pa, pr) := by
  rcases hok with ⟨hns, hpr0⟩ | ⟨hpr0, hnp⟩ | ⟨hup, p2, hs2, hsp⟩
  · subst hpr0
    rw [if_neg (fun hc => hns hc.1), if_pos rfl, List.append_nil]
  · subst hpr0
    rw [if_pos rfl, List.append_nil]
    rw [if_neg (fun hc => hnp hc.2)]
  · by_cases hin : ';' ∈ pa ++ (if pr = [] then [] else ';' :: pr)
    · rw [if_pos ⟨hup, hin⟩]
      exact splitParams_roundtrip p2 pa pr hs2 hsp hin
    · rw [if_neg (fun hc => hin hc.2)]
      have hpr0 : pr = [] := by
        by_contra h0
        apply hin
        rw [if_neg h0]
        exact List.mem_append_right _ (List.mem_cons_self _ _)
      subst hpr0
      rw [if_pos rfl, List.append_nil]

theorem params_step_slash (sch pa pr : List Char) (hok : paramsOK sch pa pr) :
    (if sch ∈ usesParams ∧
        ';' ∈ '/' :: (pa ++ (if pr = [] then [] else ';' :: pr))
     then splitParams ('/' :: (pa ++ (if pr = [] then [] else ';' :: pr)))
     else ('/' :: (pa ++ (if pr = [] then [] else ';' :: pr)), [])) =
      ('/' :: pa, pr) := by
  rcases hok with ⟨hns, hpr0⟩ | ⟨hpr0, hnp⟩ | ⟨hup, p2, hs2, hsp⟩
  · subst hpr0
    rw [if_neg (fun hc => hns hc.1), if_pos rfl, List.append_nil]
  · subst hpr0
    rw [if_pos rfl, List.append_nil]
    rw [if_neg]
    intro hc
    rcases List.mem_cons.mp hc.2 with h1 | h1
    · exact absurd h1 (by decide)
    · exact hnp h1
  · by_cases hin : ';' ∈ pa ++ (if pr = [] then [] else ';' :: pr)
    · rw [if_pos ⟨hup, List.mem_cons_of_mem _ hin⟩]
      exact splitParams_roundtrip_slash p2 pa pr hs2 hsp hin
    · rw [if_neg]
      · have hpr0 : pr = [] := by
          by_contra h0
          apply hin
          rw [if_neg h0]
          exact List.mem_append_right _ (List.mem_cons_self _ _)
        subst hpr0
        rw [if_pos rfl, List.append_nil]
      · intro hc
        rcases List.mem_cons.mp hc.2 with h1 | h1
        · exact absurd h1 (by decide)
        · exact hin h1

/-!
## scrubUrl and splitScheme inversion lemmas
-/

theorem c0_false_unsafe_false (c : Char) (h : c0ControlOrSpace c = false) :
    unsafeUrlChar c = false := by
  cases hu : unsafeUrlChar c
  · rfl
  · exfalso
    unfold unsafeUrlChar at hu
    simp only [Bool.or_eq_true, decide_eq_true_eq] at hu
    rcases hu with (h1 | h1) | h1 <;> (subst h1; revert h; decide)

theorem scrubUrl_head (l : List Char) (d : Char) (t : List Char)
    (h : scrubUrl l = d :: t) : c0ControlOrSpace d = false := by
  unfold scrubUrl at h
  rcases hm : l.dropWhile c0ControlOrSpace with _ | ⟨x, xs⟩
  · rw [hm] at h
    exact absurd h (by simp)
  · rw [hm] at h
    have hx : c0ControlOrSpace x = false :=
      dropWhile_head_false c0ControlOrSpace l x xs hm
    have hnx : (!unsafeUrlChar x) = true := by
      rw [c0_false_unsafe_false x hx]
      rfl
    rw [List.filter_cons, if_pos hnx] at h
    injection h with h1 _
    rw [← h1]
    exact hx

theorem scrub_eq_self (l : List Char)
    (hu : ∀ x ∈ l, unsafeUrlChar x = false)
    (hh : ∀ d t, l = d :: t → c0ControlOrSpace d = false) :
    scrubUrl l = l := by
  unfold scrubUrl
  have hdrop : l.dropWhile c0ControlOrSpace = l := by
    cases l with
    | nil => rfl
    | cons d t =>
        rw [List.dropWhile_cons, if_neg]
        intro hc
        rw [hh d t rfl] at hc
        exact Bool.false_ne_true hc
  rw [hdrop, List.filter_eq_self.mpr]
  intro x hx
  rw [hu x hx]
  rfl

theorem scrub_no_unsafe (l : List Char) :
    ∀ x ∈ scrubUrl l, unsafeUrlChar x = false := by
  intro x hx
  unfold scrubUrl at hx
  have := List.of_mem_filter hx
  simpa using this

theorem splitScheme_inv (u : List Char) :
    splitScheme u = ([], u) ∨
    (∃ p ps r, u = (p :: ps) ++ ':' :: r ∧
      splitScheme u = ((p :: ps).map lowerChar, r) ∧
      (∀ a ∈ p :: ps, schemeChar a = true) ∧ asciiAlpha p = true) := by
  rcases h1 : u.takeWhile schemeChar with _ | ⟨p, ps⟩
  · left
    unfold splitScheme
    rw [h1]
  · rcases h2 : u.dropWhile schemeChar with _ | ⟨x, xs⟩
    · left
      unfold splitScheme
      rw [h1, h2]
    · by_cases hc : x = ':' ∧ asciiAlpha p = true
      · right
        have hdec := List.takeWhile_append_dropWhile schemeChar u
        rw [h1, h2] at hdec
        rcases hc with ⟨rfl, hp⟩
        refine ⟨p, ps, xs, hdec.symm, ?_, ?_, hp⟩
        · unfold splitScheme
          rw [h1, h2]
          dsimp only
          rw [if_pos ⟨rfl, hp⟩]
        · intro a ha
          exact List.mem_takeWhile_imp (h1 ▸ ha)
      · left
        unfold splitScheme
        rw [h1, h2]
        dsimp only
        rw [if_neg hc]

theorem map_lowerChar_idem (l : List Char) :
    (l.map lowerChar).map lowerChar = l.map lowerChar := by
  rw [List.map_map]
  apply List.map_congr_left
  intro a _
  exact lowerChar_idem a

/-!
## urlparseCore computation and inversion
-/

theorem urlparseCore_steps (vh : List Char → Bool) (w sch r1 nl r2 pa pr :
      List Char)
    (hscrub : scrubUrl w = w)
    (hsch : splitScheme w = (sch, r1))
    (hnl : splitNetloc vh r1 = some (nl, r2))
    (hpp : (if sch ∈ usesParams ∧ ';' ∈ takeUntil '?' (takeUntil '#' r2)
       then splitParams (takeUntil '?' (takeUntil '#' r2))
       else (takeUntil '?' (takeUntil '#' r2), [])) = (pa, pr)) :
    urlparseCore vh w = some ⟨sch, nl, pa, pr,
      dropPast '?' (takeUntil '#' r2), dropPast '#' r2⟩ := by
  unfold urlparseCore
  dsimp only
  rw [hscrub, hsch]
  dsimp only
  rw [hnl]
  dsimp only
  rw [hpp]

theorem urlparseCore_inv (vh : List Char → Bool) (u : List Char)
    (c : UrlComponents) (h : urlparseCore vh u = some c) :
    ∃ r2,
      splitNetloc vh (splitScheme (scrubUrl u)).2 = some (c.netloc, r2) ∧
      c.scheme = (splitScheme (scrubUrl u)).1 ∧
      (c.path, c.params) =
        (if c.scheme ∈ usesParams ∧ ';' ∈ takeUntil '?' (takeUntil '#' r2)
         then splitParams (takeUntil '?' (takeUntil '#' r2))
         else (takeUntil '?' (takeUntil '#' r2), [])) ∧
      c.query = dropPast '?' (takeUntil '#' r2) ∧
      c.fragment = dropPast '#' r2 := by
  unfold urlparseCore at h
  dsimp only at h
  rcases hnl : splitNetloc vh (splitScheme (scrubUrl u)).2 with _ | ⟨nl, r2⟩
  · rw [hnl] at h
    exact absurd h (by simp)
  · rw [hnl] at h
    dsimp only at h
    have hc := Option.some_inj.mp h
    subst hc
    exact ⟨r2, rfl, rfl, rfl, rfl, rfl⟩

/-!
## urlunparse evaluation lemmas (query and fragment empty)
-/

theorem urlunparse_noNetloc (sch nl pa pr : List Char)
    (hcond : ¬(nl ≠ [] ∨ (sch ≠ [] ∧ sch ∈ usesNetloc ∧
      (pa ++ (if pr = [] then [] else ';' :: pr)).take 2 ≠ ['/', '/']))) :
    urlunparse ⟨sch, nl, pa, pr, [], []⟩ =
      (if sch = [] then pa ++ (if pr = [] then [] else ';' :: pr)
       else sch ++ ':' :: (pa ++ (if pr = [] then [] else ';' :: pr))) := by
  unfold urlunparse
  dsimp only
  rw [if_pos rfl, if_pos rfl, if_neg hcond]

theorem urlunparse_netloc_nil (sch nl pa pr : List Char)
    (hcond : nl ≠ [] ∨ (sch ≠ [] ∧ sch ∈ usesNetloc ∧
      (pa ++ (if pr = [] then [] else ';' :: pr)).take 2 ≠ ['/', '/']))
    (hu0 : pa ++ (if pr = [] then [] else ';' :: pr) = []) :
    urlunparse ⟨sch, nl, pa, pr, [], []⟩ =
      (if sch = [] then '/' :: '/' :: (nl ++ [])
       else sch ++ ':' :: ('/' :: '/' :: (nl ++ []))) := by
  unfold urlunparse
  dsimp only
  rw [if_pos rfl, if_pos rfl, if_pos hcond, hu0]

theorem urlunparse_netloc_slash (sch nl pa pr : List Char) (t : List Char)
    (hcond : nl ≠ [] ∨ (sch ≠ [] ∧ sch ∈ usesNetloc ∧
      (pa ++ (if pr = [] then [] else ';' :: pr)).take 2 ≠ ['/', '/']))
    (hu0 : pa ++ (if pr = [] then [] else ';' :: pr) = '/' :: t) :
    urlunparse ⟨sch, nl, pa, pr, [], []⟩ =
      (if sch = [] then '/' :: '/' :: (nl ++ '/' :: t)
       else sch ++ ':' :: ('/' :: '/' :: (nl ++ '/' :: t))) := by
  unfold urlunparse
  dsimp only
  rw [if_pos rfl, if_pos rfl, if_pos hcond, hu0]
  dsimp only
  rw [if_pos rfl]

theorem urlunparse_netloc_noslash (sch nl pa pr : List Char) (a : Char)
    (t : List Char)
    (hcond : nl ≠ [] ∨ (sch ≠ [] ∧ sch ∈ usesNetloc ∧
      (pa ++ (if pr = [] then [] else ';' :: pr)).take 2 ≠ ['/', '/']))
    (hu0 : pa ++ (if pr = [] then [] else ';' :: pr) = a :: t)
    (ha : ¬a = '/') :
    urlunparse ⟨sch, nl, pa, pr, [], []⟩ =
      (if sch = [] then '/' :: '/' :: (nl ++ '/' :: a :: t)
       else sch ++ ':' :: ('/' :: '/' :: (nl ++ '/' :: a :: t))) := by
  unfold urlunparse
  dsimp only
  rw [if_pos rfl, if_pos rfl, if_pos hcond, hu0]
  dsimp only
  rw [if_neg ha]

theorem u0_not_mem (x : Char) (pa pr : List Char) (hx : ¬x = ';')
    (h1 : x ∉ pa) (h2 : x ∉ pr) :
    x ∉ pa ++ (if pr = [] then [] else ';' :: pr) := by
  intro hmem
  rcases List.mem_append.mp hmem with h | h
  · exact h1 h
  · by_cases hpr0 : pr = []
    · rw [if_pos hpr0] at h
      simp at h
    · rw [if_neg hpr0] at h
      rcases List.mem_cons.mp h with h3 | h3
      · exact hx h3
      · exact h2 h3

theorem u0_forall (f : Char → Bool) (pa pr : List Char) (hs : f ';' = false)
    (h1 : ∀ x ∈ pa, f x = false) (h2 : ∀ x ∈ pr, f x = false) :
    ∀ x ∈ pa ++ (if pr = [] then [] else ';' :: pr), f x = false := by
  intro x hmem
  rcases List.mem_append.mp hmem with h | h
  · exact h1 x h
  · by_cases hpr0 : pr = []
    · rw [if_pos hpr0] at h
      simp at h
    · rw [if_neg hpr0] at h
      rcases List.mem_cons.mp h with h3 | h3
      · rw [h3]
        exact hs
      · exact h2 x h3

theorem u0_take_two (pa pr : List Char)
    (h : (pa ++ (if pr = [] then [] else ';' :: pr)).take 2 = ['/', '/']) :
    pa.take 2 = ['/', '/'] := by
  rcases pa with _ | ⟨x, _ | ⟨y, ys⟩⟩
  · exfalso
    rw [List.nil_append] at h
    by_cases hpr0 : pr = []
    · rw [if_pos hpr0] at h
      exact absurd h (by decide)
    · rw [if_neg hpr0] at h
      have h2 : (';' :: pr).take 2 = ';' :: pr.take 1 := rfl
      rw [h2] at h
      injection h with ha _
      exact absurd ha (by decide)
  · exfalso
    by_cases hpr0 : pr = []
    · rw [if_pos hpr0, List.append_nil] at h
      rw [show ([x] : List Char).take 2 = [x] from rfl] at h
      injection h with _ hb
      exact absurd hb (by decide)
    · rw [if_neg hpr0] at h
      have h2 : (([x] : List Char) ++ ';' :: pr).take 2 = x :: ';' :: pr.take 0
          := rfl
      rw [h2] at h
      injection h with _ hb
      injection hb with hb _
      exact absurd hb (by decide)
  · have h2 : ((x :: y :: ys : List Char) ++
        (if pr = [] then [] else ';' :: pr)).take 2 = [x, y] := rfl
    rw [h2] at h
    exact h

theorem forall_unsafe_nil : ∀ x ∈ ([] : List Char), unsafeUrlChar x = false :=
  by intro x hx; simp at hx

theorem forall_unsafe_cons (c : Char) (l : List Char)
    (hc : unsafeUrlChar c = false)
    (hl : ∀ x ∈ l, unsafeUrlChar x = false) :
    ∀ x ∈ c :: l, unsafeUrlChar x = false := by
  intro x hx
  rcases List.mem_cons.mp hx with rfl | hx'
  · exact hc
  · exact hl x hx'

theorem forall_unsafe_append (l1 l2 : List Char)
    (h1 : ∀ x ∈ l1, unsafeUrlChar x = false)
    (h2 : ∀ x ∈ l2, unsafeUrlChar x = false) :
    ∀ x ∈ l1 ++ l2, unsafeUrlChar x = false := by
  intro x hx
  rcases List.mem_append.mp hx with h | h
  · exact h1 x h
  · exact h2 x h

theorem urlunparse_reparse (vh : List Char → Bool) (sch nl pa pr : List Char)
    (hsch : sch = [] ∨ ∃ p ps, sch = p :: ps ∧
      (∀ a ∈ p :: ps, schemeChar a = true) ∧ asciiAlpha p = true ∧
      (p :: ps).map lowerChar = p :: ps)
    (hnlD : ∀ a ∈ nl, netlocDelim a = false)
    (hbr : ('[' ∈ nl) ↔ (']' ∈ nl))
    (hvhB : '[' ∈ nl → vh (takeUntil ']' (dropPast '[' nl)) = true)
    (hpaH : '#' ∉ pa) (hpaQ : '?' ∉ pa) (hprH : '#' ∉ pr) (hprQ : '?' ∉ pr)
    (hok : paramsOK sch pa pr)
    (hUnl : ∀ x ∈ nl, unsafeUrlChar x = false)
    (hUpa : ∀ x ∈ pa, unsafeUrlChar x = false)
    (hUpr : ∀ x ∈ pr, unsafeUrlChar x = false)
    (hH : nl ≠ [] ∨ pa.take 2 ≠ ['/', '/'])
    (hrej : sch = [] → nl = [] →
      splitScheme (pa ++ (if pr = [] then [] else ';' :: pr)) =
        ([], pa ++ (if pr = [] then [] else ';' :: pr)))
    (hc0 : sch = [] → nl = [] → ∀ x xs, pa = x :: xs →
      c0ControlOrSpace x = false) :
    normalizeList vh (urlunparse ⟨sch, nl, pa, pr, [], []⟩) =
      some (urlunparse ⟨sch, nl, pa, pr, [], []⟩) := by
  have hu0H : '#' ∉ pa ++ (if pr = [] then [] else ';' :: pr) :=
    u0_not_mem '#' pa pr (by decide) hpaH hprH
  have hu0Q : '?' ∉ pa ++ (if pr = [] then [] else ';' :: pr) :=
    u0_not_mem '?' pa pr (by decide) hpaQ hprQ
  have hu0U : ∀ x ∈ pa ++ (if pr = [] then [] else ';' :: pr),
      unsafeUrlChar x = false :=
    u0_forall unsafeUrlChar pa pr (by decide) hUpa hUpr
  by_cases hC : nl ≠ [] ∨ (sch ≠ [] ∧ sch ∈ usesNetloc ∧
      (pa ++ (if pr = [] then [] else ';' :: pr)).take 2 ≠ ['/', '/'])
  · rcases hu0 : pa ++ (if pr = [] then [] else ';' :: pr) with _ | ⟨a, t⟩
    · have hv := urlunparse_netloc_nil sch nl pa pr hC hu0
      rw [hv]
      have hppN : ∀ s : List Char, (if s ∈ usesParams ∧
          ';' ∈ takeUntil '?' (takeUntil '#' ([] : List Char))
        then splitParams (takeUntil '?' (takeUntil '#' ([] : List Char)))
        else (takeUntil '?' (takeUntil '#' ([] : List Char)), [])) =
          (([] : List Char), ([] : List Char)) := by
        intro s
        rw [if_neg]
        · rfl
        · intro hcnd
          have h2 := hcnd.2
          rw [show takeUntil '?' (takeUntil '#' ([] : List Char)) = []
            from rfl] at h2
          simp at h2
      have hnet : splitNetloc vh ('/' :: '/' :: (nl ++ [])) =
          some (nl, []) :=
        splitNetloc_slashes vh nl [] hnlD (Or.inl rfl) hbr hvhB
      rcases hsch with hs0 | ⟨p, ps, hsp, hall, halpha, hfix⟩
      · subst hs0
        rw [if_pos rfl]
        have hnl0 : nl ≠ [] := by
          rcases hC with h | ⟨h1, _⟩
          · exact h
          · exact absurd rfl h1
        have hscr : scrubUrl ('/' :: '/' :: (nl ++ [])) =
            '/' :: '/' :: (nl ++ []) := by
          apply scrub_eq_self
          · exact forall_unsafe_cons _ _ (by decide)
              (forall_unsafe_cons _ _ (by decide)
                (forall_unsafe_append _ _ hUnl forall_unsafe_nil))
          · intro d tt hdt
            injection hdt with h1 _
            rw [← h1]
            exact slash_not_c0
        have hsplit : splitScheme ('/' :: '/' :: (nl ++ [])) =
            ([], '/' :: '/' :: (nl ++ [])) :=
          splitScheme_reject_head '/' _ (by decide)
        unfold normalizeList
        rw [urlparseCore_steps vh ('/' :: '/' :: (nl ++ [])) []
          ('/' :: '/' :: (nl ++ [])) nl [] [] []
          hscr hsplit hnet (hppN [])]
        rw [Option.map_some']
        refine congrArg some ?_
        dsimp only [stripQF]
        have hv2 := urlunparse_netloc_nil [] nl [] [] (Or.inl hnl0) rfl
        rw [hv2, if_pos rfl]
      · subst hsp
        rw [if_neg (List.cons_ne_nil p ps)]
        have hscr : scrubUrl ((p :: ps) ++ ':' :: ('/' :: '/' :: (nl ++ []))) =
            (p :: ps) ++ ':' :: ('/' :: '/' :: (nl ++ [])) := by
          apply scrub_eq_self
          · exact forall_unsafe_append _ _
              (fun x hx => schemeChar_not_unsafe x (hall x hx))
              (forall_unsafe_cons _ _ (by decide)
                (forall_unsafe_cons _ _ (by decide)
                  (forall_unsafe_cons _ _ (by decide)
                    (forall_unsafe_append _ _ hUnl forall_unsafe_nil))))
          · intro d tt hdt
            injection hdt with h1 _
            rw [← h1]
            exact asciiAlpha_not_c0 p halpha
        have hsplit := splitScheme_accept p ps ('/' :: '/' :: (nl ++ []))
          hall halpha hfix
        unfold normalizeList
        rw [urlparseCore_steps vh
          ((p :: ps) ++ ':' :: ('/' :: '/' :: (nl ++ [])))
          (p :: ps) ('/' :: '/' :: (nl ++ [])) nl [] [] []
          hscr hsplit hnet (hppN (p :: ps))]
        rw [Option.map_some']
        refine congrArg some ?_
        dsimp only [stripQF]
        have hC2 : nl ≠ [] ∨ ((p :: ps : List Char) ≠ [] ∧
            (p :: ps) ∈ usesNetloc ∧
            (([] : List Char) ++ (if ([] : List Char) = [] then []
              else ';' :: ([] : List Char))).take 2 ≠ ['/', '/']) := by
          rcases hC with h | ⟨h1, h2, _⟩
          · exact Or.inl h
          · exact Or.inr ⟨h1, h2, by decide⟩
        have hv2 := urlunparse_netloc_nil (p :: ps) nl [] [] hC2 rfl
        rw [hv2, if_neg (List.cons_ne_nil p ps)]
    · by_cases ha : a = '/'
      · subst ha
        have hv := urlunparse_netloc_slash sch nl pa pr t hC hu0
        rw [hv]
        have htH : '#' ∉ ('/' :: t : List Char) := by
          rw [← hu0]
          exact hu0H
        have htQ : '?' ∉ ('/' :: t : List Char) := by
          rw [← hu0]
          exact hu0Q
        have htU : ∀ x ∈ ('/' :: t : List Char), unsafeUrlChar x = false := by
          rw [← hu0]
          exact hu0U
        have hnet : splitNetloc vh ('/' :: '/' :: (nl ++ '/' :: t)) =
            some (nl, '/' :: t) :=
          splitNetloc_slashes vh nl ('/' :: t) hnlD
            (Or.inr ⟨'/', t, rfl, by decide⟩) hbr hvhB
        have hpp : (if sch ∈ usesParams ∧
            ';' ∈ takeUntil '?' (takeUntil '#' ('/' :: t))
          then splitParams (takeUntil '?' (takeUntil '#' ('/' :: t)))
          else (takeUntil '?' (takeUntil '#' ('/' :: t)), [])) = (pa, pr) := by
          rw [takeUntil_of_not_mem '#' _ htH, takeUntil_of_not_mem '?' _ htQ]
          rw [← hu0]
          exact params_step sch pa pr hok
        rcases hsch with hs0 | ⟨p, ps, hsp, hall, halpha, hfix⟩
        · subst hs0
          rw [if_pos rfl]
          have hscr : scrubUrl ('/' :: '/' :: (nl ++ '/' :: t)) =
              '/' :: '/' :: (nl ++ '/' :: t) := by
            apply scrub_eq_self
            · exact forall_unsafe_cons _ _ (by decide)
                (forall_unsafe_cons _ _ (by decide)
                  (forall_unsafe_append _ _ hUnl htU))
            · intro d tt hdt
              injection hdt with h1 _
              rw [← h1]
              exact slash_not_c0
          have hsplit : splitScheme ('/' :: '/' :: (nl ++ '/' :: t)) =
              ([], '/' :: '/' :: (nl ++ '/' :: t)) :=
            splitScheme_reject_head '/' _ (by decide)
          unfold normalizeList
          rw [urlparseCore_steps vh ('/' :: '/' :: (nl ++ '/' :: t)) []
            ('/' :: '/' :: (nl ++ '/' :: t)) nl ('/' :: t) pa pr
            hscr hsplit hnet hpp]
          rw [Option.map_some']
          refine congrArg some ?_
          dsimp only [stripQF]
          rw [hv, if_pos rfl]
        · subst hsp
          rw [if_neg (List.cons_ne_nil p ps)]
          have hscr : scrubUrl
              ((p :: ps) ++ ':' :: ('/' :: '/' :: (nl ++ '/' :: t))) =
              (p :: ps) ++ ':' :: ('/' :: '/' :: (nl ++ '/' :: t)) := by
            apply scrub_eq_self
            · exact forall_unsafe_append _ _
                (fun x hx => schemeChar_not_unsafe x (hall x hx))
                (forall_unsafe_cons _ _ (by decide)
                  (forall_unsafe_cons _ _ (by decide)
                    (forall_unsafe_cons _ _ (by decide)
                      (forall_unsafe_append _ _ hUnl htU))))
            · intro d tt hdt
              injection hdt with h1 _
              rw [← h1]
              exact asciiAlpha_not_c0 p halpha
          have hsplit := splitScheme_accept p ps
            ('/' :: '/' :: (nl ++ '/' :: t)) hall halpha hfix
          unfold normalizeList
          rw [urlparseCore_steps vh
            ((p :: ps) ++ ':' :: ('/' :: '/' :: (nl ++ '/' :: t)))
            (p :: ps) ('/' :: '/' :: (nl ++ '/' :: t)) nl ('/' :: t) pa pr
            hscr hsplit hnet hpp]
          rw [Option.map_some']
          refine congrArg some ?_
          dsimp only [stripQF]
          rw [hv, if_neg (List.cons_ne_nil p ps)]
      · have hv := urlunparse_netloc_noslash sch nl pa pr a t hC hu0 ha
        rw [hv]
        have htH : '#' ∉ ('/' :: a :: t : List Char) := by
          intro hx
          rcases List.mem_cons.mp hx with h1 | h1
          · exact absurd h1 (by decide)
          · rw [← hu0] at h1
            exact hu0H h1
        have htQ : '?' ∉ ('/' :: a :: t : List Char) := by
          intro hx
          rcases List.mem_cons.mp hx with h1 | h1
          · exact absurd h1 (by decide)
          · rw [← hu0] at h1
            exact hu0Q h1
        have htU : ∀ x ∈ ('/' :: a :: t : List Char),
            unsafeUrlChar x = false := by
          apply forall_unsafe_cons _ _ (by decide)
          rw [← hu0]
          exact hu0U
        have hnet : splitNetloc vh ('/' :: '/' :: (nl ++ '/' :: a :: t)) =
            some (nl, '/' :: a :: t) :=
          splitNetloc_slashes vh nl ('/' :: a :: t) hnlD
            (Or.inr ⟨'/', a :: t, rfl, by decide⟩) hbr hvhB
        have hpp : (if sch ∈ usesParams ∧
            ';' ∈ takeUntil '?' (takeUntil '#' ('/' :: a :: t))
          then splitParams (takeUntil '?' (takeUntil '#' ('/' :: a :: t)))
          else (takeUntil '?' (takeUntil '#' ('/' :: a :: t)), [])) =
            ('/' :: pa, pr) := by
          rw [takeUntil_of_not_mem '#' _ htH, takeUntil_of_not_mem '?' _ htQ]
          have hcons : ('/' :: a :: t : List Char) =
              '/' :: (pa ++ (if pr = [] then [] else ';' :: pr)) := by
            rw [hu0]
          rw [hcons]
          exact params_step_slash sch pa pr hok
        have hC2 : nl ≠ [] ∨ (sch ≠ [] ∧ sch ∈ usesNetloc ∧
            (('/' :: pa) ++ (if pr = [] then [] else ';' :: pr)).take 2 ≠
              ['/', '/']) := by
          rcases hC with h | ⟨h1, h2, _⟩
          · exact Or.inl h
          · refine Or.inr ⟨h1, h2, ?_⟩
            intro hx
            have he : (('/' :: pa) ++
                (if pr = [] then [] else ';' :: pr)).take 2
                = '/' :: (pa ++ (if pr = [] then [] else ';' :: pr)).take 1 :=
              rfl
            rw [he, hu0] at hx
            rw [show ((a :: t : List Char)).take 1 = [a] from rfl] at hx
            injection hx with _ hb
            injection hb with hb _
            exact ha hb
        have hu0T : ('/' :: pa) ++ (if pr = [] then [] else ';' :: pr) =
            '/' :: (pa ++ (if pr = [] then [] else ';' :: pr)) := rfl
        have hv2 := urlunparse_netloc_slash sch nl ('/' :: pa) pr
          (pa ++ (if pr = [] then [] else ';' :: pr)) hC2 hu0T
        rcases hsch with hs0 | ⟨p, ps, hsp, hall, halpha, hfix⟩
        · subst hs0
          rw [if_pos rfl]
          have hscr : scrubUrl ('/' :: '/' :: (nl ++ '/' :: a :: t)) =
              '/' :: '/' :: (nl ++ '/' :: a :: t) := by
            apply scrub_eq_self
            · exact forall_unsafe_cons _ _ (by decide)
                (forall_unsafe_cons _ _ (by decide)
                  (forall_unsafe_append _ _ hUnl htU))
            · intro d tt hdt
              injection hdt with h1 _
              rw [← h1]
              exact slash_not_c0
          have hsplit : splitScheme ('/' :: '/' :: (nl ++ '/' :: a :: t)) =
              ([], '/' :: '/' :: (nl ++ '/' :: a :: t)) :=
            splitScheme_reject_head '/' _ (by decide)
          unfold normalizeList
          rw [urlparseCore_steps vh ('/' :: '/' :: (nl ++ '/' :: a :: t)) []
            ('/' :: '/' :: (nl ++ '/' :: a :: t)) nl ('/' :: a :: t)
            ('/' :: pa) pr hscr hsplit hnet hpp]
          rw [Option.map_some']
          refine congrArg some ?_
          dsimp only [stripQF]
          rw [hv2, if_pos rfl, hu0]
        · subst hsp
          rw [if_neg (List.cons_ne_nil p ps)]
          have hscr : scrubUrl
              ((p :: ps) ++ ':' :: ('/' :: '/' :: (nl ++ '/' :: a :: t))) =
              (p :: ps) ++ ':' :: ('/' :: '/' :: (nl ++ '/' :: a :: t)) := by
            apply scrub_eq_self
            · exact forall_unsafe_append _ _
                (fun x hx => schemeChar_not_unsafe x (hall x hx))
                (forall_unsafe_cons _ _ (by decide)
                  (forall_unsafe_cons _ _ (by decide)
                    (forall_unsafe_cons _ _ (by decide)
                      (forall_unsafe_append _ _ hUnl htU))))
            · intro d tt hdt
              injection hdt with h1 _
              rw [← h1]
              exact asciiAlpha_not_c0 p halpha
          have hsplit := splitScheme_accept p ps
            ('/' :: '/' :: (nl ++ '/' :: a :: t)) hall halpha hfix
          unfold normalizeList
          rw [urlparseCore_steps vh
            ((p :: ps) ++ ':' :: ('/' :: '/' :: (nl ++ '/' :: a :: t)))
            (p :: ps) ('/' :: '/' :: (nl ++ '/' :: a :: t)) nl
            ('/' :: a :: t) ('/' :: pa) pr hscr hsplit hnet hpp]
          rw [Option.map_some']
          refine congrArg some ?_
          dsimp only [stripQF]
          rw [hv2, if_neg (List.cons_ne_nil p ps), hu0]
  · have hnl0 : nl = [] := by
      by_contra h0
      exact hC (Or.inl h0)
    subst hnl0
    have hpa2 : pa.take 2 ≠ ['/', '/'] := by
      rcases hH with h | h
      · exact absurd rfl h
      · exact h
    have hu0t2 : (pa ++ (if pr = [] then [] else ';' :: pr)).take 2 ≠
        ['/', '/'] := fun hx => hpa2 (u0_take_two pa pr hx)
    have hv := urlunparse_noNetloc sch [] pa pr hC
    rw [hv]
    have hnet : splitNetloc vh (pa ++ (if pr = [] then [] else ';' :: pr)) =
        some ([], pa ++ (if pr = [] then [] else ';' :: pr)) :=
      splitNetloc_not_slashes vh _ hu0t2
    have hpp : (if sch ∈ usesParams ∧ ';' ∈ takeUntil '?' (takeUntil '#'
        (pa ++ (if pr = [] then [] else ';' :: pr)))
      then splitParams (takeUntil '?' (takeUntil '#' (pa ++
        (if pr = [] then [] else ';' :: pr))))
      else (takeUntil '?' (takeUntil '#' (pa ++
        (if pr = [] then [] else ';' :: pr))), [])) = (pa, pr) := by
      rw [takeUntil_of_not_mem '#' _ hu0H, takeUntil_of_not_mem '?' _ hu0Q]
      exact params_step sch pa pr hok
    rcases hsch with hs0 | ⟨p, ps, hsp, hall, halpha, hfix⟩
    · subst hs0
      rw [if_pos rfl]
      have hscr : scrubUrl (pa ++ (if pr = [] then [] else ';' :: pr)) =
          pa ++ (if pr = [] then [] else ';' :: pr) := by
        apply scrub_eq_self
        · exact hu0U
        · intro d tt hdt
          rcases hpa : pa with _ | ⟨y, ys⟩
          · rw [hpa, List.nil_append] at hdt
            by_cases hpr0 : pr = []
            · rw [if_pos hpr0] at hdt
              exact absurd hdt (by simp)
            · rw [if_neg hpr0] at hdt
              injection hdt with h1 _
              rw [← h1]
              decide
          · rw [hpa, List.cons_append] at hdt
            injection hdt with h1 _
            rw [← h1]
            exact hc0 rfl rfl y ys hpa
      have hsplit := hrej rfl rfl
      unfold normalizeList
      rw [urlparseCore_steps vh (pa ++ (if pr = [] then [] else ';' :: pr)) []
        (pa ++ (if pr = [] then [] else ';' :: pr)) []
        (pa ++ (if pr = [] then [] else ';' :: pr)) pa pr
        hscr hsplit hnet hpp]
      rw [Option.map_some']
      refine congrArg some ?_
      dsimp only [stripQF]
      rw [hv, if_pos rfl]
    · subst hsp
      rw [if_neg (List.cons_ne_nil p ps)]
      have hscr : scrubUrl ((p :: ps) ++ ':' ::
          (pa ++ (if pr = [] then [] else ';' :: pr))) =
          (p :: ps) ++ ':' :: (pa ++ (if pr = [] then [] else ';' :: pr)) := by
        apply scrub_eq_self
        · exact forall_unsafe_append _ _
            (fun x hx => schemeChar_not_unsafe x (hall x hx))
            (forall_unsafe_cons _ _ (by decide) hu0U)
        · intro d tt hdt
          injection hdt with h1 _
          rw [← h1]
          exact asciiAlpha_not_c0 p halpha
      have hsplit := splitScheme_accept p ps
        (pa ++ (if pr = [] then [] else ';' :: pr)) hall halpha hfix
      unfold normalizeList
      rw [urlparseCore_steps vh ((p :: ps) ++ ':' ::
        (pa ++ (if pr = [] then [] else ';' :: pr)))
        (p :: ps) (pa ++ (if pr = [] then [] else ';' :: pr)) []
        (pa ++ (if pr = [] then [] else ';' :: pr)) pa pr
        hscr hsplit hnet hpp]
      rw [Option.map_some']
      refine congrArg some ?_
      dsimp only [stripQF]
      rw [hv, if_neg (List.cons_ne_nil p ps)]

theorem normalizeList_idem (vh : List Char → Bool) (u : List Char)
    (c : UrlComponents) (hp : urlparseCore vh u = some c)
    (hH : c.netloc ≠ [] ∨ c.path.take 2 ≠ ['/', '/']) :
    normalizeList vh (urlunparse (stripQF c)) =
      some (urlunparse (stripQF c)) := by
  obtain ⟨r2, hnet, hsch_eq, hppq, _, _⟩ := urlparseCore_inv vh u c hp
  obtain ⟨hnlD, hbr2, hvhB2, hdisj⟩ := splitNetloc_inv vh _ c.netloc r2 hnet
  have hp1H : '#' ∉ takeUntil '#' r2 := not_mem_takeUntil '#' r2
  have hp2Q : '?' ∉ takeUntil '?' (takeUntil '#' r2) := not_mem_takeUntil '?' _
  have hp2H : '#' ∉ takeUntil '?' (takeUntil '#' r2) := by
    intro hx
    have hx' : '#' ∈ (takeUntil '#' r2).takeWhile (fun a => a != '?') := hx
    exact hp1H ((List.takeWhile_sublist _).mem hx')
  have hmain : (∀ x ∈ c.path, x ∈ takeUntil '?' (takeUntil '#' r2)) ∧
      (∀ x ∈ c.params, x ∈ takeUntil '?' (takeUntil '#' r2)) ∧
      paramsOK c.scheme c.path c.params ∧
      (∃ tl, (c.path ++ (if c.params = [] then [] else ';' :: c.params)) ++ tl
        = takeUntil '?' (takeUntil '#' r2)) := by
    by_cases hcond : c.scheme ∈ usesParams ∧
        ';' ∈ takeUntil '?' (takeUntil '#' r2)
    · rw [if_pos hcond] at hppq
      have hsplitp : splitParams (takeUntil '?' (takeUntil '#' r2)) =
          (c.path, c.params) := hppq.symm
      have hreb := splitParams_rebuild _ _ _ hcond.2 hsplitp
      refine ⟨?_, ?_, ?_, ?_⟩
      · intro x hx
        rcases hreb with he | ⟨_, he⟩
        · rw [← he]
          exact List.mem_append_left _ hx
        · rw [← he]
          exact hx
      · intro x hx
        rcases hreb with he | ⟨hpz, _⟩
        · rw [← he]
          exact List.mem_append_right _ (List.mem_cons_of_mem _ hx)
        · rw [hpz] at hx
          simp at hx
      · exact Or.inr (Or.inr ⟨hcond.1, _, hcond.2, hsplitp⟩)
      · by_cases hpr0 : c.params = []
        · rcases hreb with he | ⟨_, he⟩
          · refine ⟨[';'], ?_⟩
            rw [if_pos hpr0, List.append_nil, ← he, hpr0]
          · refine ⟨[], ?_⟩
            rw [if_pos hpr0, List.append_nil, List.append_nil, he]
        · rcases hreb with he | ⟨hpz, _⟩
          · refine ⟨[], ?_⟩
            rw [if_neg hpr0, List.append_nil]
            exact he
          · exact absurd hpz hpr0
    · rw [if_neg hcond] at hppq
      have hpath : c.path = takeUntil '?' (takeUntil '#' r2) :=
        congrArg Prod.fst hppq
      have hparams : c.params = [] := congrArg Prod.snd hppq
      refine ⟨?_, ?_, ?_, ?_⟩
      · intro x hx
        rw [← hpath]
        exact hx
      · intro x hx
        rw [hparams] at hx
        simp at hx
      · by_cases hup : c.scheme ∈ usesParams
        · refine Or.inr (Or.inl ⟨hparams, ?_⟩)
          rw [hpath]
          intro hm
          exact hcond ⟨hup, hm⟩
        · exact Or.inl ⟨hup, hparams⟩
      · refine ⟨[], ?_⟩
        rw [hparams, if_pos rfl, List.append_nil, List.append_nil, hpath]
  obtain ⟨hpaSub, hprSub, hok, tl, htl⟩ := hmain
  have hpaH : '#' ∉ c.path := fun hx => hp2H (hpaSub _ hx)
  have hpaQ : '?' ∉ c.path := fun hx => hp2Q (hpaSub _ hx)
  have hprH : '#' ∉ c.params := fun hx => hp2H (hprSub _ hx)
  have hprQ : '?' ∉ c.params := fun hx => hp2Q (hprSub _ hx)
  have hspU : ∀ x ∈ (splitScheme (scrubUrl u)).2, unsafeUrlChar x = false := by
    rcases splitScheme_inv (scrubUrl u) with h0 |
      ⟨p0, ps0, r0, hu', hsp', _, _⟩
    · rw [h0]
      exact scrub_no_unsafe u
    · rw [hsp']
      intro x hx
      apply scrub_no_unsafe u
      rw [hu']
      exact List.mem_append_right _ (List.mem_cons_of_mem _ hx)
  have hr2sub : ∀ x ∈ r2, x ∈ (splitScheme (scrubUrl u)).2 := by
    rcases hdisj with ⟨_, hr2eq, _⟩ | ⟨hw, _⟩
    · intro x hx
      rw [← hr2eq]
      exact hx
    · intro x hx
      rw [hw]
      exact List.mem_cons_of_mem _ (List.mem_cons_of_mem _
        (List.mem_append_right _ hx))
  have hr2U : ∀ x ∈ r2, unsafeUrlChar x = false :=
    fun x hx => hspU x (hr2sub x hx)
  have hnlU : ∀ x ∈ c.netloc, unsafeUrlChar x = false := by
    rcases hdisj with ⟨hn0, _, _⟩ | ⟨hw, _⟩
    · intro x hx
      rw [hn0] at hx
      simp at hx
    · intro x hx
      apply hspU
      rw [hw]
      exact List.mem_cons_of_mem _ (List.mem_cons_of_mem _
        (List.mem_append_left _ hx))
  have hp2sub : ∀ x ∈ takeUntil '?' (takeUntil '#' r2), x ∈ r2 := by
    intro x hx
    have hx' : x ∈ (takeUntil '#' r2).takeWhile (fun a => a != '?') := hx
    have h1 : x ∈ takeUntil '#' r2 := (List.takeWhile_sublist _).mem hx'
    have h1' : x ∈ r2.takeWhile (fun a => a != '#') := h1
    exact (List.takeWhile_sublist _).mem h1'
  have hUpa : ∀ x ∈ c.path, unsafeUrlChar x = false :=
    fun x hx => hr2U x (hp2sub x (hpaSub x hx))
  have hUpr : ∀ x ∈ c.params, unsafeUrlChar x = false :=
    fun x hx => hr2U x (hp2sub x (hprSub x hx))
  rcases splitScheme_inv (scrubUrl u) with hrej0 |
    ⟨p0, ps0, r0, hu', hsp', hall0, halpha0⟩
  · have hs0 : c.scheme = [] := by
      rw [hsch_eq, hrej0]
    have hsp2 : (splitScheme (scrubUrl u)).2 = scrubUrl u := by
      rw [hrej0]
    have ht2 : takeUntil '?' (takeUntil '#' r2) ++
        (takeUntil '#' r2).dropWhile (fun a => a != '?') = takeUntil '#' r2 :=
      List.takeWhile_append_dropWhile _ _
    have ht1 : takeUntil '#' r2 ++ r2.dropWhile (fun a => a != '#') = r2 :=
      List.takeWhile_append_dropWhile _ _
    have hdecomp : r2 = (c.path ++ (if c.params = [] then []
        else ';' :: c.params)) ++ (tl ++
        ((takeUntil '#' r2).dropWhile (fun a => a != '?') ++
         r2.dropWhile (fun a => a != '#'))) := by
      have hcalc : (c.path ++ (if c.params = [] then []
          else ';' :: c.params)) ++ (tl ++
          ((takeUntil '#' r2).dropWhile (fun a => a != '?') ++
           r2.dropWhile (fun a => a != '#'))) =
          (((c.path ++ (if c.params = [] then [] else ';' :: c.params))
            ++ tl) ++ (takeUntil '#' r2).dropWhile (fun a => a != '?')) ++
           r2.dropWhile (fun a => a != '#') := by
        simp [List.append_assoc]
      rw [hcalc, htl, ht2, ht1]
    have hrejA : c.scheme = [] → c.netloc = [] →
        splitScheme (c.path ++ (if c.params = [] then []
          else ';' :: c.params)) =
        ([], c.path ++ (if c.params = [] then [] else ';' :: c.params)) := by
      intro _ hn0
      have hr2rej : splitScheme r2 = ([], r2) := by
        rcases hdisj with ⟨_, hr2eq, _⟩ | ⟨hw, hrr⟩
        · rw [hr2eq, hsp2]
          exact hrej0
        · rcases hrr with rfl | ⟨d, rs, rfl, hd⟩
          · exact splitScheme_reject_nil
          · apply splitScheme_reject_head
            unfold netlocDelim at hd
            simp only [Bool.or_eq_true, decide_eq_true_eq] at hd
            rcases hd with (rfl | rfl) | rfl <;> decide
      exact splitScheme_prefix_reject r2 _ _ hr2rej hdecomp
    have hc0A : c.scheme = [] → c.netloc = [] → ∀ x xs, c.path = x :: xs →
        c0ControlOrSpace x = false := by
      intro _ hn0 x xs hx
      rw [hx] at hdecomp
      have hT : r2 = x :: ((xs ++ (if c.params = [] then []
          else ';' :: c.params)) ++ (tl ++
          ((takeUntil '#' r2).dropWhile (fun a => a != '?') ++
           r2.dropWhile (fun a => a != '#')))) := hdecomp
      rcases hdisj with ⟨_, hr2eq, _⟩ | ⟨_, hrr⟩
      · apply scrubUrl_head u x _
        rw [← hsp2, ← hr2eq]
        exact hT
      · rcases hrr with hr0 | ⟨d, rs, hr0, hd⟩
        · rw [hr0] at hT
          exact absurd hT (by simp)
        · rw [hr0] at hT
          injection hT with h1 _
          rw [← h1]
          unfold netlocDelim at hd
          simp only [Bool.or_eq_true, decide_eq_true_eq] at hd
          rcases hd with (rfl | rfl) | rfl <;> decide
    exact urlunparse_reparse vh c.scheme c.netloc c.path c.params
      (Or.inl hs0) hnlD hbr2 hvhB2 hpaH hpaQ hprH hprQ hok hnlU hUpa hUpr
      hH hrejA hc0A
  · have hsB : c.scheme = lowerChar p0 :: List.map lowerChar ps0 := by
      rw [hsch_eq, hsp']
      rfl
    have hallB : ∀ a ∈ lowerChar p0 :: List.map lowerChar ps0,
        schemeChar a = true := by
      intro a hax
      have hax2 : a ∈ List.map lowerChar (p0 :: ps0) := hax
      obtain ⟨b, hb, rfl⟩ := List.mem_map.mp hax2
      exact schemeChar_lowerChar b (hall0 b hb)
    have hrejB : c.scheme = [] → c.netloc = [] →
        splitScheme (c.path ++ (if c.params = [] then []
          else ';' :: c.params)) =
        ([], c.path ++ (if c.params = [] then [] else ';' :: c.params)) := by
      intro hs0 _
      rw [hsB] at hs0
      simp at hs0
    have hc0B : c.scheme = [] → c.netloc = [] → ∀ x xs, c.path = x :: xs →
        c0ControlOrSpace x = false := by
      intro hs0 _ x xs _
      rw [hsB] at hs0
      simp at hs0
    exact urlunparse_reparse vh c.scheme c.netloc c.path c.params
      (Or.inr ⟨lowerChar p0, List.map lowerChar ps0, hsB, hallB,
        asciiAlpha_lowerChar p0 halpha0, map_lowerChar_idem (p0 :: ps0)⟩)
      hnlD hbr2 hvhB2 hpaH hpaQ hprH hprQ hok hnlU hUpa hUpr hH hrejB hc0B

/-- C9 (amended): the curator's URL normalization (parse, drop query and
fragment, unparse) is idempotent for every URL whose parse yields a
nonempty netloc or a path not beginning with `//`: if `s` parses to
components `c` with `c.netloc ≠ []` or `c.path.take 2 ≠ ['/', '/']`, and
`s` normalizes to `v`, then `v` normalizes to itself.  (The unrestricted
claim is refuted by `normalize_not_idempotent_slashes`: under the
CPython ≥ 3.11 `urlunsplit`, an empty netloc with a `//`-headed path
loses a slash pair per round trip.) -/
theorem normalize_idempotent_amended (vh : List Char → Bool) (s v : String)
    (c : UrlComponents)
    (hparse : urlparseCore vh s.data = some c)
    (hcase : c.netloc ≠ [] ∨ c.path.take 2 ≠ ['/', '/'])
    (hnorm : normalizeUrl vh s = some v) :
    normalizeUrl vh v = some v := by
  have hlist := normalizeList_idem vh s.data c hparse hcase
  have hv : v = ⟨urlunparse (stripQF c)⟩ := by
    unfold normalizeUrl normalizeList at hnorm
    rw [hparse] at hnorm
    exact (Option.some_inj.mp hnorm).symm
  subst hv
  unfold normalizeUrl
  rw [show (String.mk (urlunparse (stripQF c))).data =
    urlunparse (stripQF c) from rfl]
  rw [hlist]
  rfl

/-- Witness for C9's amended theorem: `"HTTP://Ex.com/a/b;p?q=1#f"`
parses with netloc `Ex.com`, normalizes to `"http://Ex.com/a/b;p"`, and
the latter normalizes to itself. -/
theorem normalize_idempotent_amended_witness :
    urlparseCore (fun _ => true)
      ("HTTP://Ex.com/a/b;p?q=1#f" : String).data =
      some ⟨"http".data, "Ex.com".data, "/a/b".data, "p".data,
        "q=1".data, "f".data⟩ ∧
    normalizeUrl (fun _ => true) "HTTP://Ex.com/a/b;p?q=1#f" =
      some "http://Ex.com/a/b;p" ∧
    normalizeUrl (fun _ => true) "http://Ex.com/a/b;p" =
      some "http://Ex.com/a/b;p" :=
  ⟨by decide, by decide,
    normalize_idempotent_amended (fun _ => true) "HTTP://Ex.com/a/b;p?q=1#f"
      "http://Ex.com/a/b;p"
      ⟨"http".data, "Ex.com".data, "/a/b".data, "p".data, "q=1".data,
        "f".data⟩
      (by decide) (by decide) (by decide)⟩
